import Mathlib

/-!
Verification development for the JSON parser/serializer core of the mpv repository
(`src/json.h`).  The repository snapshot contains only the header: the data model
(`mpv_node`, `mpv_node_list`, `mpv_byte_array`, `mpv_format`) and the prototypes of
`json_parse`, `json_skip_whitespace`, `json_write`, `json_write_pretty`.  The data
model below is embedded from the header; the operations are modelled from the
specification (each such definition says so in its doc comment).

Conventions of the embedding:
* A C byte buffer is a `List Nat` of byte values; the input cursor (`char **src`)
  becomes the returned rest-of-input list.
* `int64_t` becomes `Int` together with the explicit range check `-2^63 ≤ i < 2^63`
  where the code performs one.
* `double` payloads are exact decimal values `mant * 10 ^ exp10` plus the non-finite
  values; every finite IEEE double has such a representation, and the spec promises
  the decimal encoding loses no precision for representable doubles.
* Fallible calls return `Except`; a parse error carries the rest of the input at the
  point of failure (the cursor position for diagnostics).
* The recursive-descent parser carries explicit fuel (decremented on every recursive
  call) so that it is structurally recursive and computable by the kernel; the
  public entry point `json_parse` supplies fuel `3 * length + 3`, which is shown to
  be enough for the inputs the theorems speak about.
-/

namespace MpvJson

/-- A byte buffer: the shallow embedding of `char *` data. -/
abbrev Bytes := List Nat

/-! ### The double model -/

/-- An exact decimal number `mant * 10 ^ exp10`.  Every finite IEEE-754 double has
such a form, and the spec requires the writer's decimal encoding to preserve the
value exactly on re-parse. -/
structure Decimal where
  mant : Int
  exp10 : Int
deriving DecidableEq, Repr

/-- The rational value denoted by a decimal. -/
def Decimal.val (d : Decimal) : ℚ := (d.mant : ℚ) * (10 : ℚ) ^ d.exp10

/-- The payload of a `MPV_FORMAT_DOUBLE` node: a finite decimal value or one of the
non-finite IEEE values (which the spec says the writer must reject). -/
inductive MpDouble where
  | finite (d : Decimal)
  | nan
  | posInf
  | negInf
deriving DecidableEq, Repr

/-! ### The value model (`mpv_node`, header lines 170-251)

The header's `mpv_node` is a tagged union whose `format` tag rules which union
member is valid (`MPV_FORMAT_NONE`, `_STRING`, `_FLAG`, `_INT64`, `_DOUBLE`,
`_NODE_ARRAY`, `_NODE_MAP`, `_BYTE_ARRAY`); the shallow embedding is the closed sum
type below.  `mpv_node_list` (num/values/keys) becomes the list of children, with
the map variant keeping the key next to its value (`keys[N]` pairs with
`values[N]`).  The C-representation details of `mpv_node_list` (the `num` counter
and the nullable backing arrays) are modelled separately further down for the
invariant claims about them. -/

mutual
inductive MpvNode where
  | none
  | str (s : Bytes)
  | flag (b : Bool)
  | int64 (i : Int)
  | double (d : MpDouble)
  | array (xs : NodeList)
  | map (ps : PairList)
  | byteArray (ba : Bytes)

inductive NodeList where
  | nil
  | cons (hd : MpvNode) (tl : NodeList)

inductive PairList where
  | nil
  | cons (key : Bytes) (val : MpvNode) (tl : PairList)
end

/-- Error kinds of the core (spec §7). -/
inductive JErr where
  | syntaxError
  | unterminated
  | depthExceeded
  | unsupportedValue
  | outOfFuel
deriving DecidableEq, Repr

/-! ### Byte classifiers and whitespace -/

/-- JSON whitespace bytes: space, tab, LF, CR. -/
def isWsByte (b : Nat) : Bool := b = 32 || b = 9 || b = 10 || b = 13

/-- ASCII decimal digit. -/
def isDigitByte (b : Nat) : Bool := 48 ≤ b && b ≤ 57

/-- Modelled from the spec: `json_skip_whitespace` (declared in `src/json.h` line
271, implementation absent from the snapshot) advances the cursor past JSON
whitespace in place. -/
def json_skip_whitespace : Bytes → Bytes
  | [] => []
  | b :: r => if isWsByte b then json_skip_whitespace r else b :: r

/-- Short local name for the whitespace skipper. -/
abbrev skipWs := json_skip_whitespace

/-! ### String literal scanning -/

/-- Value of an ASCII hex digit, accepting both cases. -/
def hexVal (b : Nat) : Option Nat :=
  if 48 ≤ b ∧ b ≤ 57 then some (b - 48)
  else if 65 ≤ b ∧ b ≤ 70 then some (b - 55)
  else if 97 ≤ b ∧ b ≤ 102 then some (b - 87)
  else Option.none

/-- UTF-8 encoding of a code point (the decoded form of `\uXXXX` escapes). -/
def utf8Encode (cp : Nat) : Bytes :=
  if cp < 128 then [cp]
  else if cp < 2048 then [192 + cp / 64, 128 + cp % 64]
  else if cp < 65536 then [224 + cp / 4096, 128 + cp / 64 % 64, 128 + cp % 64]
  else [240 + cp / 262144, 128 + cp / 4096 % 64, 128 + cp / 64 % 64, 128 + cp % 64]

/-- The single-character JSON escapes: `\" \\ \/ \b \f \n \r \t` mapped to the byte
they denote. -/
def simpleEsc (e : Nat) : Option Nat :=
  if e = 34 then some 34
  else if e = 92 then some 92
  else if e = 47 then some 47
  else if e = 98 then some 8
  else if e = 102 then some 12
  else if e = 110 then some 10
  else if e = 114 then some 13
  else if e = 116 then some 9
  else Option.none

/-- Prepend decoded bytes to the string being accumulated by `parseStrBody`. -/
def strCons (b : Bytes) :
    Except (JErr × Bytes) (Bytes × Bytes) → Except (JErr × Bytes) (Bytes × Bytes)
  | .error e => .error e
  | .ok (s, r) => .ok (b ++ s, r)

/-- Read four hex digits (the `XXXX` of a `\uXXXX` escape), returning the code
unit and the rest. -/
def parseHex4 (l : Bytes) : Option (Nat × Bytes) :=
  match l with
  | h1 :: h2 :: h3 :: h4 :: r =>
    match hexVal h1, hexVal h2, hexVal h3, hexVal h4 with
    | some a, some b, some c, some d => some (((a * 16 + b) * 16 + c) * 16 + d, r)
    | _, _, _, _ => Option.none
  | _ => Option.none

/-- Modelled from the spec: the string-literal scanner of `json_parse` (declared in
`src/json.h` line 270, implementation absent from the snapshot).  Called just after
the opening quote; decodes the standard escapes (including `\uXXXX` with surrogate
pairs) into the byte sequence, passes other bytes through, and fails on an invalid
escape or an unterminated literal.  Returns the decoded bytes and the rest after
the closing quote.  The fuel argument only makes the recursion structural;
`parseStr` supplies enough of it. -/
def parseStrBodyF : Nat → Bytes → Except (JErr × Bytes) (Bytes × Bytes)
  | 0, l => .error (.outOfFuel, l)
  | _ + 1, [] => .error (.unterminated, [])
  | f + 1, b :: r =>
    if b = 34 then .ok ([], r)
    else if b = 92 then
      match r with
      | [] => .error (.unterminated, [])
      | e :: r2 =>
        if e = 117 then
          match parseHex4 r2 with
          | Option.none => .error (.syntaxError, r)
          | some (cp, r3) =>
            if 55296 ≤ cp ∧ cp < 56320 then
              match r3 with
              | 92 :: 117 :: r4 =>
                match parseHex4 r4 with
                | Option.none => .error (.syntaxError, r3)
                | some (lo, r5) =>
                  if 56320 ≤ lo ∧ lo < 57344 then
                    strCons (utf8Encode (65536 + (cp - 55296) * 1024 + (lo - 56320)))
                      (parseStrBodyF f r5)
                  else .error (.syntaxError, r3)
              | _ => .error (.syntaxError, r3)
            else if 56320 ≤ cp ∧ cp < 57344 then .error (.syntaxError, r)
            else strCons (utf8Encode cp) (parseStrBodyF f r3)
        else
          match simpleEsc e with
          | some d => strCons [d] (parseStrBodyF f r2)
          | Option.none => .error (.syntaxError, r)
    else strCons [b] (parseStrBodyF f r)

/-- The string-literal scanner with enough fuel for its input (each step of
`parseStrBodyF` consumes at least one byte). -/
def parseStr (l : Bytes) : Except (JErr × Bytes) (Bytes × Bytes) :=
  parseStrBodyF (l.length + 1) l

/-! ### Number literal scanning -/

/-- Scan a maximal run of ASCII digits, returning their values and the rest. -/
def scanDigits : Bytes → List Nat × Bytes
  | [] => ([], [])
  | b :: r =>
    if isDigitByte b then
      let (ds, rest) := scanDigits r
      ((b - 48) :: ds, rest)
    else ([], b :: r)

/-- The number denoted by a big-endian list of digit values. -/
def digitsVal (ds : List Nat) : Nat := ds.foldl (fun a d => 10 * a + d) 0

/-- Does the buffer start with the byte `x`? -/
def headIs (x : Nat) : Bytes → Bool
  | [] => false
  | c :: _ => c == x

/-- Scan an optional fraction part `.digits`; a dot not followed by a digit is a
syntax error. -/
def parseFrac (l : Bytes) : Except (JErr × Bytes) (Option (List Nat) × Bytes) :=
  if headIs 46 l then
    match scanDigits l.tail with
    | ([], _) => .error (.syntaxError, l.tail)
    | (ds, rest) => .ok (some ds, rest)
  else .ok (Option.none, l)

/-- Split a leading `+` or `-` sign off an exponent body: the Boolean says whether
the exponent is negated. -/
def expSign (l : Bytes) : Bool × Bytes :=
  if headIs 43 l then (false, l.tail)
  else if headIs 45 l then (true, l.tail)
  else (false, l)

/-- Scan an optional exponent part `[eE][+-]?digits`; an exponent marker not
followed by a digit is a syntax error. -/
def parseExp (l : Bytes) : Except (JErr × Bytes) (Option Int × Bytes) :=
  if headIs 101 l || headIs 69 l then
    let sp : Bool × Bytes := expSign l.tail
    match scanDigits sp.2 with
    | ([], _) => .error (.syntaxError, sp.2)
    | (ds, rest) =>
      .ok (some (if sp.1 then -(digitsVal ds : Int) else (digitsVal ds : Int)), rest)
  else .ok (Option.none, l)

/-- Split a leading minus sign off a number literal. -/
def splitSign (l : Bytes) : Bool × Bytes :=
  if headIs 45 l then (true, l.tail) else (false, l)

/-- Modelled from the spec: the number scanner of `json_parse` (declared in
`src/json.h` line 270, implementation absent from the snapshot).  A literal with no
fractional part and no exponent that fits the signed 64-bit range becomes `Int64`;
a literal with a fractional part, an exponent, or an overflowing integer value
becomes `Double` (never a failure on mere overflow). -/
def parseNumber (l : Bytes) : Except (JErr × Bytes) (MpvNode × Bytes) :=
  let sp : Bool × Bytes := splitSign l
  match scanDigits sp.2 with
  | ([], _) => .error (.syntaxError, l)
  | (ds, l2) =>
    match parseFrac l2 with
    | .error e => .error e
    | .ok (fo, l3) =>
      match parseExp l3 with
      | .error e => .error e
      | .ok (eo, l4) =>
        let fs := fo.getD []
        let mag : Nat := digitsVal ds * 10 ^ fs.length + digitsVal fs
        let v : Int := if sp.1 then -(mag : Int) else (mag : Int)
        if fo = Option.none ∧ eo = Option.none then
          if -(2 ^ 63) ≤ v ∧ v < 2 ^ 63 then .ok (.int64 v, l4)
          else .ok (.double (.finite ⟨v, 0⟩), l4)
        else .ok (.double (.finite ⟨v, (eo.getD 0) - (fs.length : Int)⟩), l4)

/-! ### The recursive-descent parser -/

mutual
/-- Modelled from the spec: the recursive-descent core of `json_parse` (declared in
`src/json.h` line 270, implementation absent from the snapshot).  `parseValue` must
be called with leading whitespace already skipped.  The depth budget `d` bounds the
nesting of arrays/objects: entering a container at budget `0` fails with
`DepthExceeded`, and each descent into the elements of a container decrements the
budget.  The fuel argument only makes the recursion structural; the entry point
supplies enough of it. -/
def parseValue : Nat → Nat → Bytes → Except (JErr × Bytes) (MpvNode × Bytes)
  | 0, _, l => .error (.outOfFuel, l)
  | f + 1, d, l =>
    match l with
    | [] => .error (.syntaxError, [])
    | c :: r =>
      if c = 110 then
        match r with
        | 117 :: 108 :: 108 :: r' => .ok (.none, r')
        | _ => .error (.syntaxError, c :: r)
      else if c = 116 then
        match r with
        | 114 :: 117 :: 101 :: r' => .ok (.flag true, r')
        | _ => .error (.syntaxError, c :: r)
      else if c = 102 then
        match r with
        | 97 :: 108 :: 115 :: 101 :: r' => .ok (.flag false, r')
        | _ => .error (.syntaxError, c :: r)
      else if c = 34 then
        match parseStr r with
        | .error e => .error e
        | .ok (s, rest) => .ok (.str s, rest)
      else if c = 91 then
        if d = 0 then .error (.depthExceeded, c :: r)
        else
          match skipWs r with
          | 93 :: r2 => .ok (.array .nil, r2)
          | r1 =>
            match parseArrItems f (d - 1) r1 with
            | .error e => .error e
            | .ok (xs, rest) => .ok (.array xs, rest)
      else if c = 123 then
        if d = 0 then .error (.depthExceeded, c :: r)
        else
          match skipWs r with
          | 125 :: r2 => .ok (.map .nil, r2)
          | r1 =>
            match parseMapItems f (d - 1) r1 with
            | .error e => .error e
            | .ok (ps, rest) => .ok (.map ps, rest)
      else if c = 45 ∨ isDigitByte c then parseNumber (c :: r)
      else .error (.syntaxError, c :: r)
  termination_by structural f _ _ => f

/-- Modelled from the spec: parse the elements of a non-empty array, starting at
the first element (whitespace skipped), up to and including the closing `]`. -/
def parseArrItems : Nat → Nat → Bytes → Except (JErr × Bytes) (NodeList × Bytes)
  | 0, _, l => .error (.outOfFuel, l)
  | f + 1, d, l =>
    match parseValue f d l with
    | .error e => .error e
    | .ok (v, r) => parseArrTail f d v r
  termination_by structural f _ _ => f

/-- Modelled from the spec: after an array element, expect `,` and further
elements or the closing `]`. -/
def parseArrTail : Nat → Nat → MpvNode → Bytes → Except (JErr × Bytes) (NodeList × Bytes)
  | 0, _, _, l => .error (.outOfFuel, l)
  | f + 1, d, v, r =>
    match skipWs r with
    | 44 :: r2 =>
      match parseArrItems f d (skipWs r2) with
      | .error e => .error e
      | .ok (xs, rest) => .ok (.cons v xs, rest)
    | 93 :: r2 => .ok (.cons v .nil, r2)
    | r' => .error (.syntaxError, r')
  termination_by structural f _ _ _ => f

/-- Modelled from the spec: parse the members of a non-empty object, starting at
the first key (whitespace skipped), up to and including the closing `}`.  Each key
must be a JSON string; keys pair with their values in source order. -/
def parseMapItems : Nat → Nat → Bytes → Except (JErr × Bytes) (PairList × Bytes)
  | 0, _, l => .error (.outOfFuel, l)
  | f + 1, d, l =>
    match l with
    | 34 :: r =>
      match parseStr r with
      | .error e => .error e
      | .ok (k, r1) =>
        match skipWs r1 with
        | 58 :: r2 =>
          match parseValue f d (skipWs r2) with
          | .error e => .error e
          | .ok (v, r3) => parseMapTail f d k v r3
        | r' => .error (.syntaxError, r')
    | _ => .error (.syntaxError, l)
  termination_by structural f _ _ => f

/-- Modelled from the spec: after an object member, expect `,` and further
members or the closing `}`. -/
def parseMapTail : Nat → Nat → Bytes → MpvNode → Bytes → Except (JErr × Bytes) (PairList × Bytes)
  | 0, _, _, _, l => .error (.outOfFuel, l)
  | f + 1, d, k, v, r =>
    match skipWs r with
    | 44 :: r4 =>
      match parseMapItems f d (skipWs r4) with
      | .error e => .error e
      | .ok (ps, rest) => .ok (.cons k v ps, rest)
    | 125 :: r4 => .ok (.cons k v .nil, r4)
    | r' => .error (.syntaxError, r')
  termination_by structural f _ _ _ _ => f
end

/-- Modelled from the spec: `json_parse` (declared in `src/json.h` line 270,
implementation absent from the snapshot).  Skips leading whitespace, parses one
JSON value bounded by `maxDepth`, and returns the value together with the rest of
the input (the cursor past the consumed text); on failure it returns the error kind
and the cursor at the point of failure.  Trailing data is left for the caller. -/
def json_parse (maxDepth : Nat) (l : Bytes) : Except (JErr × Bytes) (MpvNode × Bytes) :=
  parseValue (3 * l.length + 3) maxDepth (skipWs l)

/-! ### Decimal rendering of numbers -/

/-- Big-endian decimal digit values of `n`; the fuel only makes the recursion
structural and `digitsOf` supplies enough of it. -/
def digitsOfAux : Nat → Nat → List Nat
  | 0, _ => []
  | f + 1, n => if n < 10 then [n] else digitsOfAux f (n / 10) ++ [n % 10]

/-- Big-endian decimal digit values of `n`. -/
def digitsOf (n : Nat) : List Nat := digitsOfAux (n + 1) n

/-- ASCII decimal rendering of a natural number. -/
def natBytes (n : Nat) : Bytes := (digitsOf n).map (· + 48)

/-- ASCII decimal rendering of an integer (minus sign for negatives). -/
def intBytes (i : Int) : Bytes := if i < 0 then 45 :: natBytes i.natAbs else natBytes i.toNat

/-- The writer's rendering of a finite double `mant * 10 ^ exp10` as the JSON
literal `<mant>e<exp10>`: an exact decimal encoding (no precision loss on
re-parse), and one that carries an exponent so that re-parsing yields a `Double`
again. -/
def decBytes (d : Decimal) : Bytes := intBytes d.mant ++ 101 :: intBytes d.exp10

/-! ### String escaping (the writer's inverse of the parser's escape set) -/

/-- Upper-case ASCII hex digit. -/
def hexDig (d : Nat) : Nat := if d < 10 then 48 + d else 55 + d

/-- Escape one byte of a string for JSON output: quote, backslash and the control
characters are escaped (using the short escapes where JSON has them, `\u00XX`
otherwise); all other bytes pass through unescaped. -/
def escByte (b : Nat) : Bytes :=
  if b = 34 then [92, 34]
  else if b = 92 then [92, 92]
  else if b = 8 then [92, 98]
  else if b = 12 then [92, 102]
  else if b = 10 then [92, 110]
  else if b = 13 then [92, 114]
  else if b = 9 then [92, 116]
  else if b < 32 then [92, 117, 48, 48, hexDig (b / 16), hexDig (b % 16)]
  else [b]

/-- Escape a whole string body. -/
def escBody : Bytes → Bytes
  | [] => []
  | b :: s => escByte b ++ escBody s

/-- The quoted, escaped JSON string literal for a byte string. -/
def strLit (s : Bytes) : Bytes := 34 :: escBody s ++ [34]

/-- Combine the outputs of two writer calls, propagating the first failure. -/
def combineW (a b : Except JErr Bytes) (f : Bytes → Bytes → Bytes) : Except JErr Bytes :=
  match a, b with
  | .ok x, .ok y => .ok (f x y)
  | .error e, _ => .error e
  | _, .error e => .error e

/-! ### The compact writer -/

mutual
/-- Modelled from the spec: `json_write` (declared in `src/json.h` line 272,
implementation absent from the snapshot).  Serializes a tree to compact JSON text:
`None` → `null`, `Flag` → `true`/`false`, `Int64` → decimal integer text,
finite `Double` → an exact decimal representation, `String` → a quoted escaped
literal, `Array`/`Map` → bracket/brace-delimited comma-separated children.  A
`ByteArray` node or a non-finite `Double` has no JSON representation: the writer
fails with `UnsupportedValue` instead of emitting a substitute. -/
def writeNode : MpvNode → Except JErr Bytes
  | .none => .ok [110, 117, 108, 108]
  | .flag true => .ok [116, 114, 117, 101]
  | .flag false => .ok [102, 97, 108, 115, 101]
  | .int64 i => .ok (intBytes i)
  | .double (.finite d) => .ok (decBytes d)
  | .double _ => .error .unsupportedValue
  | .str s => .ok (strLit s)
  | .byteArray _ => .error .unsupportedValue
  | .array .nil => .ok [91, 93]
  | .array (.cons x tl) =>
    combineW (writeNode x) (writeArrTail tl) (fun bx bt => 91 :: bx ++ bt)
  | .map .nil => .ok [123, 125]
  | .map (.cons k v tl) =>
    combineW (writeNode v) (writeMapTail tl)
      (fun bv bt => 123 :: strLit k ++ 58 :: bv ++ bt)

/-- Remaining elements of a non-empty array, including the closing bracket. -/
def writeArrTail : NodeList → Except JErr Bytes
  | .nil => .ok [93]
  | .cons x tl =>
    combineW (writeNode x) (writeArrTail tl) (fun bx bt => 44 :: bx ++ bt)

/-- Remaining members of a non-empty object, including the closing brace. -/
def writeMapTail : PairList → Except JErr Bytes
  | .nil => .ok [125]
  | .cons k v tl =>
    combineW (writeNode v) (writeMapTail tl)
      (fun bv bt => 44 :: strLit k ++ 58 :: bv ++ bt)
end

/-- Modelled from the spec: `json_write` (declared in `src/json.h` line 272). -/
def json_write (t : MpvNode) : Except JErr Bytes := writeNode t

/-! ### The pretty writer -/

/-- Indentation: four spaces per nesting level. -/
def indentB (n : Nat) : Bytes := List.replicate (4 * n) 32

mutual
/-- Modelled from the spec: the indenting serializer behind `json_write_pretty`
(declared in `src/json.h` line 273, implementation absent from the snapshot).
Same traversal and leaf encoding as the compact writer; each array/object element
is placed on its own line, indented proportionally to the nesting depth `ind`,
with a single space after each key's colon; empty containers render compactly. -/
def writePrettyNode (ind : Nat) : MpvNode → Except JErr Bytes
  | .array .nil => .ok [91, 93]
  | .array (.cons x tl) =>
    combineW (writePrettyNode (ind + 1) x) (writePrettyArrTail ind tl)
      (fun bx bt => 91 :: 10 :: indentB (ind + 1) ++ bx ++ bt)
  | .map .nil => .ok [123, 125]
  | .map (.cons k v tl) =>
    combineW (writePrettyNode (ind + 1) v) (writePrettyMapTail ind tl)
      (fun bv bt => 123 :: 10 :: indentB (ind + 1) ++ strLit k ++ 58 :: 32 :: bv ++ bt)
  | t => writeNode t

/-- Remaining elements of a pretty-printed array: `ind` is the indentation level
of the array itself, its elements sit at `ind + 1`. -/
def writePrettyArrTail (ind : Nat) : NodeList → Except JErr Bytes
  | .nil => .ok (10 :: indentB ind ++ [93])
  | .cons x tl =>
    combineW (writePrettyNode (ind + 1) x) (writePrettyArrTail ind tl)
      (fun bx bt => 44 :: 10 :: indentB (ind + 1) ++ bx ++ bt)

/-- Remaining members of a pretty-printed object. -/
def writePrettyMapTail (ind : Nat) : PairList → Except JErr Bytes
  | .nil => .ok (10 :: indentB ind ++ [125])
  | .cons k v tl =>
    combineW (writePrettyNode (ind + 1) v) (writePrettyMapTail ind tl)
      (fun bv bt => 44 :: 10 :: indentB (ind + 1) ++ strLit k ++ 58 :: 32 :: bv ++ bt)
end

/-- Modelled from the spec: `json_write_pretty` (declared in `src/json.h` line
273). -/
def json_write_pretty (t : MpvNode) : Except JErr Bytes := writePrettyNode 0 t

/-! ### Structural measures and predicates -/

mutual
/-- Nesting depth of a tree: scalars are at depth 0, a container is one deeper
than its deepest child (an empty container has depth 1). -/
def treeDepth : MpvNode → Nat
  | .array xs => 1 + depthList xs
  | .map ps => 1 + depthPairs ps
  | _ => 0

/-- Deepest element of an array body. -/
def depthList : NodeList → Nat
  | .nil => 0
  | .cons x tl => max (treeDepth x) (depthList tl)

/-- Deepest value of an object body. -/
def depthPairs : PairList → Nat
  | .nil => 0
  | .cons _ v tl => max (treeDepth v) (depthPairs tl)
end

mutual
/-- A node the writer must reject somewhere inside: a `ByteArray` node or a
non-finite `Double` node. -/
def hasBad : MpvNode → Bool
  | .double (.finite _) => false
  | .double _ => true
  | .byteArray _ => true
  | .array xs => hasBadList xs
  | .map ps => hasBadPairs ps
  | _ => false

/-- `hasBad` over an array body. -/
def hasBadList : NodeList → Bool
  | .nil => false
  | .cons x tl => hasBad x || hasBadList tl

/-- `hasBad` over an object body. -/
def hasBadPairs : PairList → Bool
  | .nil => false
  | .cons _ v tl => hasBad v || hasBadPairs tl
end

mutual
/-- Characterization of the trees the parser can produce from a byte buffer: no
`ByteArray` anywhere, every `Double` finite, every `Int64` within the signed
64-bit range, and every string a sequence of bytes. -/
def producible : MpvNode → Bool
  | .none => true
  | .flag _ => true
  | .int64 i => decide (-(2 ^ 63) ≤ i ∧ i < 2 ^ 63)
  | .double (.finite _) => true
  | .double _ => false
  | .str s => s.all (· < 256)
  | .array xs => producibleList xs
  | .map ps => produciblePairs ps
  | .byteArray _ => false

/-- `producible` over an array body. -/
def producibleList : NodeList → Bool
  | .nil => true
  | .cons x tl => producible x && producibleList tl

/-- `producible` over an object body (keys are byte strings too). -/
def produciblePairs : PairList → Bool
  | .nil => true
  | .cons k v tl => k.all (· < 256) && producible v && produciblePairs tl
end

mutual
/-- `ByteArray`-freeness of a tree (the parser invariant of claim C8). -/
def noByteArray : MpvNode → Bool
  | .byteArray _ => false
  | .array xs => noByteArrayList xs
  | .map ps => noByteArrayPairs ps
  | _ => true

/-- `noByteArray` over an array body. -/
def noByteArrayList : NodeList → Bool
  | .nil => true
  | .cons x tl => noByteArray x && noByteArrayList tl

/-- `noByteArray` over an object body. -/
def noByteArrayPairs : PairList → Bool
  | .nil => true
  | .cons _ v tl => noByteArray v && noByteArrayPairs tl
end

mutual
/-- The tree obtained by re-parsing the written form of a tree: identical except
that an `Int64` whose value does not fit the signed 64-bit range comes back as the
`Double` with the same integral value (the parser tags overflowing integer
literals as doubles). -/
def normV : MpvNode → MpvNode
  | .int64 i =>
    if -(2 ^ 63) ≤ i ∧ i < 2 ^ 63 then .int64 i else .double (.finite ⟨i, 0⟩)
  | .array xs => .array (normL xs)
  | .map ps => .map (normP ps)
  | t => t

/-- `normV` over an array body. -/
def normL : NodeList → NodeList
  | .nil => .nil
  | .cons x tl => .cons (normV x) (normL tl)

/-- `normV` over an object body. -/
def normP : PairList → PairList
  | .nil => .nil
  | .cons k v tl => .cons k (normV v) (normP tl)
end

/-! ### The C representation of `mpv_node_list` (header lines 209-236)

`mpv_node_list` carries `int num` (never negative), a `values` pointer that must
cover `values[0] .. values[num-1]` when `num > 0` and may be `NULL` otherwise, and
a `keys` pointer with the same rule for maps, whose entries must be non-null
strings.  `CList` models the struct with nullable pointers as `Option`s. -/

structure CList (α : Type) where
  num : Int
  values : Option (List α)
  keys : Option (List (Option Bytes))

/-- The documented invariant of `mpv_node_list` in array mode: `num` is never
negative, and when `num > 0` the entries `values[0] .. values[num-1]` are valid. -/
def CList.wfArray (l : CList α) : Prop :=
  0 ≤ l.num ∧ (0 < l.num → ∃ vs, l.values = some vs ∧ l.num.toNat ≤ vs.length)

/-- The documented invariant of `mpv_node_list` in map mode: additionally
`keys[0] .. keys[num-1]` are valid non-null strings. -/
def CList.wfMap (l : CList α) : Prop :=
  l.wfArray ∧
    (0 < l.num → ∃ ks, l.keys = some ks ∧ l.num.toNat ≤ ks.length ∧
      ∀ i, (h : i < l.num.toNat) → (h2 : i < ks.length) → ks.get ⟨i, h2⟩ ≠ Option.none)

/-- Reading the valid entries of a list: what every operation over an
`mpv_node_list` accesses (`values[0] .. values[num-1]`, nothing when the backing
array is absent). -/
def CList.elems (l : CList α) : List α := (l.values.getD []).take l.num.toNat

/-- Plain list of an array body. -/
def toListN : NodeList → List MpvNode
  | .nil => []
  | .cons x tl => x :: toListN tl

/-- Plain list of an object body. -/
def toListP : PairList → List (Bytes × MpvNode)
  | .nil => []
  | .cons k v tl => (k, v) :: toListP tl

/-- How the parser materializes an array body as an `mpv_node_list`: a zeroed
struct (count 0, `NULL` arrays) for an empty container, and a fully backed
`values` array otherwise. -/
def encodeArr (xs : NodeList) : CList MpvNode :=
  match toListN xs with
  | [] => ⟨0, Option.none, Option.none⟩
  | l => ⟨l.length, some l, Option.none⟩

/-- How the parser materializes an object body as an `mpv_node_list`: a zeroed
struct for an empty object, fully backed `values` and non-null `keys` arrays
otherwise. -/
def encodeMap (ps : PairList) : CList MpvNode :=
  match toListP ps with
  | [] => ⟨0, Option.none, Option.none⟩
  | l => ⟨l.length, some (l.map Prod.snd), some (l.map (fun p => some p.1))⟩

/-! ## Lemmas about whitespace skipping -/

theorem skipWs_cons_ws {b : Nat} (r : Bytes) (h : isWsByte b = true) :
    skipWs (b :: r) = skipWs r := by
  simp [skipWs, json_skip_whitespace, h]

theorem skipWs_cons_nonws {b : Nat} (r : Bytes) (h : isWsByte b = false) :
    skipWs (b :: r) = b :: r := by
  simp [skipWs, json_skip_whitespace, h]

theorem skipWs_ws_append {w : Bytes} (r : Bytes) (h : w.all isWsByte = true) :
    skipWs (w ++ r) = skipWs r := by
  induction w with
  | nil => rfl
  | cons b w ih =>
    simp only [List.all_cons, Bool.and_eq_true] at h
    rw [List.cons_append, skipWs_cons_ws _ h.1, ih h.2]

theorem indentB_all_ws (n : Nat) : (indentB n).all isWsByte = true := by
  rw [List.all_eq_true]
  intro b hb
  rw [indentB, List.mem_replicate] at hb
  rw [hb.2]
  rfl

theorem skipWs_indent (n : Nat) (r : Bytes) : skipWs (indentB n ++ r) = skipWs r :=
  skipWs_ws_append r (indentB_all_ws n)

/-! ## Lemmas about decimal digits -/

theorem digitsOfAux_fuel (f : Nat) : ∀ g n, n < f → n < g → digitsOfAux f n = digitsOfAux g n := by
  induction f with
  | zero => omega
  | succ f ih =>
    intro g n hf hg
    match g with
    | g + 1 =>
      simp only [digitsOfAux]
      by_cases h : n < 10
      · simp [h]
      · rw [if_neg h, if_neg h, ih g (n / 10) (by omega) (by omega)]

theorem digitsOf_lt10 {n : Nat} (h : n < 10) : digitsOf n = [n] := by
  simp [digitsOf, digitsOfAux, h]

theorem digitsOf_ge10 {n : Nat} (h : 10 ≤ n) :
    digitsOf n = digitsOf (n / 10) ++ [n % 10] := by
  show digitsOfAux (n + 1) n = _
  rw [show n + 1 = n + 1 from rfl]
  simp only [digitsOfAux, if_neg (by omega : ¬ n < 10)]
  rw [digitsOfAux_fuel n (n / 10 + 1) (n / 10) (by omega) (by omega)]
  rfl

theorem digitsVal_append_single (ds : List Nat) (d : Nat) :
    digitsVal (ds ++ [d]) = 10 * digitsVal ds + d := by
  simp [digitsVal, List.foldl_append]

theorem digitsVal_digitsOf (n : Nat) : digitsVal (digitsOf n) = n := by
  induction n using Nat.strong_induction_on with
  | _ n ih =>
    by_cases h : n < 10
    · rw [digitsOf_lt10 h]; simp [digitsVal]
    · rw [digitsOf_ge10 (by omega), digitsVal_append_single,
        ih (n / 10) (by omega)]
      omega

theorem digitsOf_ne_nil (n : Nat) : digitsOf n ≠ [] := by
  by_cases h : n < 10
  · rw [digitsOf_lt10 h]; simp
  · rw [digitsOf_ge10 (by omega)]; simp

theorem digitsOf_all_lt (n : Nat) : ∀ d ∈ digitsOf n, d < 10 := by
  induction n using Nat.strong_induction_on with
  | _ n ih =>
    by_cases h : n < 10
    · rw [digitsOf_lt10 h]; simpa using h
    · rw [digitsOf_ge10 (by omega)]
      intro d hd
      rcases List.mem_append.mp hd with h1 | h2
      · exact ih (n / 10) (by omega) d h1
      · simp at h2; omega

/-- A buffer that does not start with an ASCII digit. -/
def headNotDigit : Bytes → Bool
  | [] => true
  | b :: _ => !isDigitByte b

theorem scanDigits_digits (ds : List Nat) (r : Bytes) (hd : ∀ d ∈ ds, d < 10)
    (hr : headNotDigit r = true) :
    scanDigits (ds.map (· + 48) ++ r) = (ds, r) := by
  induction ds with
  | nil =>
    cases r with
    | nil => rfl
    | cons b r' =>
      simp only [headNotDigit, Bool.not_eq_true'] at hr
      simp [scanDigits, hr]
  | cons d ds ih =>
    have hdlt : d < 10 := hd d (by simp)
    have : isDigitByte (d + 48) = true := by simp [isDigitByte]; omega
    simp only [List.map_cons, List.cons_append, scanDigits, this, if_true,
      List.append_eq]
    rw [ih (fun x hx => hd x (by simp [hx]))]
    simp

theorem scanDigits_natBytes (n : Nat) (r : Bytes) (hr : headNotDigit r = true) :
    scanDigits (natBytes n ++ r) = (digitsOf n, r) :=
  scanDigits_digits (digitsOf n) r (digitsOf_all_lt n) hr

/-! ## Lemmas about number parsing -/

/-- A buffer whose head cannot extend a number literal (no digit, dot or exponent
marker): what follows a number in any JSON context. -/
def numStop : Bytes → Bool
  | [] => true
  | b :: _ => !(isDigitByte b || b = 46 || b = 101 || b = 69)

theorem numStop_headNotDigit {r : Bytes} (h : numStop r = true) :
    headNotDigit r = true := by
  cases r with
  | nil => rfl
  | cons b r' =>
    simp [numStop] at h
    simp [headNotDigit, h.1]

theorem numStop_headIs {r : Bytes} (h : numStop r = true) :
    headIs 46 r = false ∧ headIs 101 r = false ∧ headIs 69 r = false := by
  cases r with
  | nil => exact ⟨rfl, rfl, rfl⟩
  | cons b r' =>
    simp [numStop] at h
    simp [headIs]
    omega

theorem splitSign_pos {b : Nat} (r : Bytes) (h : b ≠ 45) :
    splitSign (b :: r) = (false, b :: r) := by
  simp [splitSign, headIs, h]

theorem splitSign_neg45 (r : Bytes) : splitSign (45 :: r) = (true, r) := rfl

theorem expSign_neg45 (l : Bytes) : expSign (45 :: l) = (true, l) := rfl

theorem expSign_pos {b : Nat} (r : Bytes) (h1 : b ≠ 43) (h2 : b ≠ 45) :
    expSign (b :: r) = (false, b :: r) := by
  simp [expSign, headIs, h1, h2]

theorem parseFrac_no {l : Bytes} (h : headIs 46 l = false) :
    parseFrac l = .ok (Option.none, l) := by
  simp [parseFrac, h]

theorem parseExp_no {l : Bytes} (h1 : headIs 101 l = false) (h2 : headIs 69 l = false) :
    parseExp l = .ok (Option.none, l) := by
  simp [parseExp, h1, h2]

theorem natBytes_exists_cons (n : Nat) :
    ∃ d0 t, natBytes n = (d0 + 48) :: t ∧ d0 < 10 := by
  obtain ⟨d0, ds0, hds⟩ := List.exists_cons_of_ne_nil (digitsOf_ne_nil n)
  exact ⟨d0, ds0.map (· + 48), by simp [natBytes, hds],
    digitsOf_all_lt n d0 (by simp [hds])⟩

theorem intBytes_eq (e : Int) :
    intBytes e = (if e < 0 then [45] else []) ++ natBytes e.natAbs := by
  by_cases he : e < 0
  · simp [intBytes, he]
  · rw [if_neg he, List.nil_append]
    rw [show intBytes e = natBytes e.toNat from by simp [intBytes, he]]
    congr 1
    omega

theorem parseExp_intBytes (e : Int) (r : Bytes) (hr : headNotDigit r = true) :
    parseExp (101 :: intBytes e ++ r) = .ok (some e, r) := by
  have hsgn : expSign (intBytes e ++ r) = (decide (e < 0), natBytes e.natAbs ++ r) := by
    rw [intBytes_eq]
    by_cases he : e < 0
    · rw [if_pos he, decide_eq_true he]
      exact expSign_neg45 _
    · rw [if_neg he, List.nil_append, decide_eq_false he]
      obtain ⟨d0, t, hnb, hd0⟩ := natBytes_exists_cons e.natAbs
      rw [hnb, List.cons_append, expSign_pos _ (by omega) (by omega)]
  unfold parseExp
  rw [show headIs 101 (101 :: intBytes e ++ r) = true from by simp [headIs],
    Bool.true_or, if_pos rfl, List.cons_append, List.tail_cons, hsgn]
  dsimp only
  rw [scanDigits_natBytes _ _ hr]
  split
  · rename_i snd heq2
    injection heq2 with h1 h2
    exact absurd h1 (digitsOf_ne_nil _)
  · rename_i ds rest heq2
    injection heq2 with h1 h2
    subst h1
    subst h2
    rw [digitsVal_digitsOf]
    have habs : (e.natAbs : Int) = e ∨ (e.natAbs : Int) = -e := by
      rcases Int.natAbs_eq e with h | h
      · exact Or.inl h.symm
      · exact Or.inr (by omega)
    by_cases he : e < 0
    · rw [decide_eq_true he, if_pos rfl]
      have hn : (e.natAbs : Int) = -e := by rcases habs with h | h <;> omega
      rw [hn, neg_neg]
    · rw [decide_eq_false he]
      simp only [Bool.false_eq_true, if_false]
      have hn : (e.natAbs : Int) = e := by rcases habs with h | h <;> omega
      rw [hn]

theorem splitSign_intBytes (m : Int) (x : Bytes) :
    splitSign (intBytes m ++ x) = (decide (m < 0), natBytes m.natAbs ++ x) := by
  rw [intBytes_eq]
  by_cases hm : m < 0
  · rw [if_pos hm, decide_eq_true hm]
    exact splitSign_neg45 _
  · rw [if_neg hm, List.nil_append, decide_eq_false hm]
    obtain ⟨d0, t, hnb, hd0⟩ := natBytes_exists_cons m.natAbs
    rw [hnb, List.cons_append, splitSign_pos _ (by omega)]

theorem natAbs_signed_val (m : Int) :
    (if (decide (m < 0)) = true then -(m.natAbs : Int) else (m.natAbs : Int)) = m := by
  have habs : (m.natAbs : Int) = m ∨ (m.natAbs : Int) = -m := by
    rcases Int.natAbs_eq m with h | h
    · exact Or.inl h.symm
    · exact Or.inr (by omega)
  by_cases hm : m < 0
  · rw [decide_eq_true hm, if_pos rfl]
    rcases habs with h | h <;> omega
  · rw [decide_eq_false hm]
    simp only [Bool.false_eq_true, if_false]
    rcases habs with h | h <;> omega

theorem digitsVal_nil : digitsVal [] = 0 := rfl

theorem parseNumber_natBytes (n : Nat) (r : Bytes) (hr : numStop r = true) :
    parseNumber (natBytes n ++ r) =
      .ok (if (n : Int) < 2 ^ 63 then .int64 (n : Int) else .double (.finite ⟨(n : Int), 0⟩), r) := by
  obtain ⟨hf, he, hE⟩ := numStop_headIs hr
  obtain ⟨d0, t, hnb, hd0⟩ := natBytes_exists_cons n
  unfold parseNumber
  rw [hnb, List.cons_append, splitSign_pos _ (by omega), ← List.cons_append, ← hnb]
  dsimp only
  rw [scanDigits_natBytes _ _ (numStop_headNotDigit hr)]
  split
  · rename_i snd heq
    injection heq with h1 h2
    exact absurd h1 (digitsOf_ne_nil _)
  · rename_i ds l2 heq
    injection heq with h1 h2
    subst h1
    subst h2
    rw [parseFrac_no hf]
    split
    · rename_i e2 heq2
      cases heq2
    · rename_i fo l3 heq2
      injection heq2 with h1
      injection h1 with hfo hl3
      subst hfo
      subst hl3
      rw [parseExp_no he hE]
      split
      · rename_i e2 heq3
        cases heq3
      · rename_i eo l4 heq3
        injection heq3 with h1
        injection h1 with heo hl4
        subst heo
        subst hl4
        rw [if_pos ⟨rfl, rfl⟩]
        simp only [Option.getD_none, List.length_nil, pow_zero, mul_one, digitsVal_nil,
          Nat.add_zero, digitsVal_digitsOf, Bool.false_eq_true, if_false]
        by_cases hn : (n : Int) < 2 ^ 63
        · rw [if_pos ⟨by omega, hn⟩, if_pos hn]
        · rw [if_neg (by omega), if_neg hn]

theorem parseNumber_neg_natBytes (n : Nat) (r : Bytes) (hr : numStop r = true) :
    parseNumber (45 :: natBytes n ++ r) =
      .ok (if (n : Int) ≤ 2 ^ 63 then .int64 (-(n : Int)) else .double (.finite ⟨-(n : Int), 0⟩), r) := by
  obtain ⟨hf, he, hE⟩ := numStop_headIs hr
  unfold parseNumber
  rw [List.cons_append, splitSign_neg45]
  dsimp only
  rw [scanDigits_natBytes _ _ (numStop_headNotDigit hr)]
  split
  · rename_i snd heq
    injection heq with h1 h2
    exact absurd h1 (digitsOf_ne_nil _)
  · rename_i ds l2 heq
    injection heq with h1 h2
    subst h1
    subst h2
    rw [parseFrac_no hf]
    split
    · rename_i e2 heq2
      cases heq2
    · rename_i fo l3 heq2
      injection heq2 with h1
      injection h1 with hfo hl3
      subst hfo
      subst hl3
      rw [parseExp_no he hE]
      split
      · rename_i e2 heq3
        cases heq3
      · rename_i eo l4 heq3
        injection heq3 with h1
        injection h1 with heo hl4
        subst heo
        subst hl4
        rw [if_pos ⟨rfl, rfl⟩]
        simp only [Option.getD_none, List.length_nil, pow_zero, mul_one, digitsVal_nil,
          Nat.add_zero, digitsVal_digitsOf, if_pos rfl, if_true]
        by_cases hn : (n : Int) ≤ 2 ^ 63
        · rw [if_pos ⟨by omega, by omega⟩, if_pos hn]
        · rw [if_neg (by omega), if_neg hn]

theorem parseNumber_decBytes (dd : Decimal) (r : Bytes) (hr : numStop r = true) :
    parseNumber (decBytes dd ++ r) = .ok (.double (.finite dd), r) := by
  obtain ⟨m, e⟩ := dd
  show parseNumber ((intBytes m ++ 101 :: intBytes e) ++ r) = _
  rw [List.append_assoc]
  unfold parseNumber
  rw [splitSign_intBytes]
  dsimp only
  rw [scanDigits_natBytes _ _ (by rfl)]
  split
  · rename_i snd heq
    injection heq with h1 h2
    exact absurd h1 (digitsOf_ne_nil _)
  · rename_i ds l2 heq
    injection heq with h1 h2
    subst h1
    subst h2
    rw [parseFrac_no (by rfl)]
    split
    · rename_i e2 heq2
      cases heq2
    · rename_i fo l3 heq2
      injection heq2 with h1
      injection h1 with hfo hl3
      subst hfo
      subst hl3
      rw [parseExp_intBytes _ _ (numStop_headNotDigit hr)]
      split
      · rename_i e2 heq3
        cases heq3
      · rename_i eo l4 heq3
        injection heq3 with h1
        injection h1 with heo hl4
        subst heo
        subst hl4
        rw [if_neg (by simp)]
        simp only [Option.getD_none, Option.getD_some, List.length_nil, pow_zero, mul_one,
          digitsVal_nil, Nat.add_zero, digitsVal_digitsOf]
        rw [natAbs_signed_val]
        norm_num

/-! ## Lemmas about string escaping -/

theorem hexVal_hexDig : ∀ d, d < 16 → hexVal (hexDig d) = some d := by decide

theorem utf8Encode_small {b : Nat} (hb : b < 128) : utf8Encode b = [b] := by
  simp [utf8Encode, hb]

theorem parseStrBodyF_quote (f : Nat) (x : Bytes) :
    parseStrBodyF (f + 1) (34 :: x) = .ok ([], x) := rfl

theorem parseStrBodyF_raw (f : Nat) {b : Nat} (x : Bytes) (h34 : b ≠ 34) (h92 : b ≠ 92) :
    parseStrBodyF (f + 1) (b :: x) = strCons [b] (parseStrBodyF f x) := by
  simp only [parseStrBodyF, if_neg h34, if_neg h92]

theorem parseStrBodyF_simpleEsc {e d : Nat} (f : Nat) (x : Bytes)
    (he : simpleEsc e = some d) (h117 : e ≠ 117) :
    parseStrBodyF (f + 1) (92 :: e :: x) = strCons [d] (parseStrBodyF f x) := by
  simp only [parseStrBodyF, if_neg (by omega : (92 : Nat) ≠ 34), if_pos rfl, if_neg h117, he,
    if_true]

theorem parseHex4_hexDig2 {b : Nat} (hb : b < 256) (x : Bytes) :
    parseHex4 (48 :: 48 :: hexDig (b / 16) :: hexDig (b % 16) :: x) = some (b, x) := by
  simp only [parseHex4, hexVal_hexDig (b / 16) (by omega), hexVal_hexDig (b % 16) (by omega),
    show hexVal 48 = some 0 from rfl]
  congr 2
  omega

theorem parseStrBodyF_u00 (f : Nat) {b : Nat} (hb : b < 32) (x : Bytes) :
    parseStrBodyF (f + 1) (92 :: 117 :: 48 :: 48 :: hexDig (b / 16) :: hexDig (b % 16) :: x)
      = strCons [b] (parseStrBodyF f x) := by
  simp only [parseStrBodyF, if_neg (by omega : (92 : Nat) ≠ 34), if_pos rfl, if_pos rfl,
    parseHex4_hexDig2 (by omega : b < 256), if_neg (by omega : ¬(55296 ≤ b ∧ b < 56320)),
    if_neg (by omega : ¬(56320 ≤ b ∧ b < 57344)), utf8Encode_small (by omega : b < 128),
    if_true]

theorem escByte_length_pos (b : Nat) : 0 < (escByte b).length := by
  unfold escByte
  split_ifs <;> simp

theorem parseStrBodyF_escBody :
    ∀ (s : Bytes) (f : Nat) (r : Bytes), (escBody s ++ 34 :: r).length < f →
      parseStrBodyF f (escBody s ++ 34 :: r) = .ok (s, r) := by
  intro s
  induction s with
  | nil =>
    intro f r hf
    obtain ⟨f2, rfl⟩ : ∃ f2, f = f2 + 1 := ⟨f - 1, by simp at hf; omega⟩
    exact parseStrBodyF_quote f2 r
  | cons b s ih =>
    intro f r hf
    rw [show escBody (b :: s) = escByte b ++ escBody s from rfl, List.append_assoc] at hf ⊢
    obtain ⟨f2, rfl⟩ : ∃ f2, f = f2 + 1 := ⟨f - 1, by simp at hf; omega⟩
    have hlen : (escBody s ++ 34 :: r).length < f2 := by
      have := escByte_length_pos b
      simp [List.length_append] at hf ⊢
      omega
    by_cases h34 : b = 34
    · subst h34
      rw [show escByte 34 = [92, 34] from rfl]
      rw [show ([92, 34] : Bytes) ++ (escBody s ++ 34 :: r)
          = 92 :: 34 :: (escBody s ++ 34 :: r) from rfl]
      rw [@parseStrBodyF_simpleEsc 34 34 f2 _ rfl (by omega), ih f2 r hlen]
      rfl
    · by_cases h92 : b = 92
      · subst h92
        rw [show escByte 92 = [92, 92] from rfl]
        rw [show ([92, 92] : Bytes) ++ (escBody s ++ 34 :: r)
            = 92 :: 92 :: (escBody s ++ 34 :: r) from rfl]
        rw [@parseStrBodyF_simpleEsc 92 92 f2 _ rfl (by omega), ih f2 r hlen]
        rfl
      · by_cases h8 : b = 8
        · subst h8
          rw [show escByte 8 = [92, 98] from rfl]
          rw [show ([92, 98] : Bytes) ++ (escBody s ++ 34 :: r)
              = 92 :: 98 :: (escBody s ++ 34 :: r) from rfl]
          rw [@parseStrBodyF_simpleEsc 98 8 f2 _ rfl (by omega), ih f2 r hlen]
          rfl
        · by_cases h12 : b = 12
          · subst h12
            rw [show escByte 12 = [92, 102] from rfl]
            rw [show ([92, 102] : Bytes) ++ (escBody s ++ 34 :: r)
                = 92 :: 102 :: (escBody s ++ 34 :: r) from rfl]
            rw [@parseStrBodyF_simpleEsc 102 12 f2 _ rfl (by omega), ih f2 r hlen]
            rfl
          · by_cases h10 : b = 10
            · subst h10
              rw [show escByte 10 = [92, 110] from rfl]
              rw [show ([92, 110] : Bytes) ++ (escBody s ++ 34 :: r)
                  = 92 :: 110 :: (escBody s ++ 34 :: r) from rfl]
              rw [@parseStrBodyF_simpleEsc 110 10 f2 _ rfl (by omega), ih f2 r hlen]
              rfl
            · by_cases h13 : b = 13
              · subst h13
                rw [show escByte 13 = [92, 114] from rfl]
                rw [show ([92, 114] : Bytes) ++ (escBody s ++ 34 :: r)
                    = 92 :: 114 :: (escBody s ++ 34 :: r) from rfl]
                rw [@parseStrBodyF_simpleEsc 114 13 f2 _ rfl (by omega), ih f2 r hlen]
                rfl
              · by_cases h9 : b = 9
                · subst h9
                  rw [show escByte 9 = [92, 116] from rfl]
                  rw [show ([92, 116] : Bytes) ++ (escBody s ++ 34 :: r)
                      = 92 :: 116 :: (escBody s ++ 34 :: r) from rfl]
                  rw [@parseStrBodyF_simpleEsc 116 9 f2 _ rfl (by omega), ih f2 r hlen]
                  rfl
                · by_cases hlt : b < 32
                  · rw [show escByte b = [92, 117, 48, 48, hexDig (b / 16), hexDig (b % 16)]
                        from by simp [escByte, h34, h92, h8, h12, h10, h13, h9, hlt]]
                    rw [show ([92, 117, 48, 48, hexDig (b / 16), hexDig (b % 16)] : Bytes)
                        ++ (escBody s ++ 34 :: r)
                        = 92 :: 117 :: 48 :: 48 :: hexDig (b / 16) :: hexDig (b % 16)
                          :: (escBody s ++ 34 :: r) from rfl]
                    rw [parseStrBodyF_u00 f2 hlt, ih f2 r hlen]
                    rfl
                  · rw [show escByte b = [b]
                        from by simp [escByte, h34, h92, h8, h12, h10, h13, h9, hlt]]
                    rw [show ([b] : Bytes) ++ (escBody s ++ 34 :: r)
                        = b :: (escBody s ++ 34 :: r) from rfl]
                    rw [parseStrBodyF_raw f2 _ h34 h92, ih f2 r hlen]
                    rfl

/-- String-literal roundtrip: scanning the writer's escaped form recovers the
original byte string exactly. -/
theorem parseStr_escBody (s r : Bytes) :
    parseStr (escBody s ++ 34 :: r) = .ok (s, r) :=
  parseStrBodyF_escBody s _ r (by omega)

/-! ## Reduction lemmas for the recursive-descent parser -/

theorem pv_nil (f d : Nat) : parseValue (f + 1) d [] = .error (.syntaxError, []) := rfl

theorem pv_null (f d : Nat) (r : Bytes) :
    parseValue (f + 1) d (110 :: 117 :: 108 :: 108 :: r) = .ok (.none, r) := rfl

theorem pv_true (f d : Nat) (r : Bytes) :
    parseValue (f + 1) d (116 :: 114 :: 117 :: 101 :: r) = .ok (.flag true, r) := rfl

theorem pv_false (f d : Nat) (r : Bytes) :
    parseValue (f + 1) d (102 :: 97 :: 108 :: 115 :: 101 :: r) = .ok (.flag false, r) := rfl

theorem pv_str_head (f d : Nat) (r : Bytes) :
    parseValue (f + 1) d (34 :: r) =
      (match parseStr r with
       | .error e => .error e
       | .ok (s, rest) => .ok (.str s, rest)) := rfl

theorem pv_str_ok (f d : Nat) {r s rest : Bytes} (h : parseStr r = .ok (s, rest)) :
    parseValue (f + 1) d (34 :: r) = .ok (.str s, rest) := by
  rw [pv_str_head, h]

theorem pv_arr_head (f d : Nat) (r : Bytes) :
    parseValue (f + 1) d (91 :: r) =
      (if d = 0 then .error (.depthExceeded, 91 :: r)
       else match skipWs r with
       | 93 :: r2 => .ok (.array .nil, r2)
       | r1 => match parseArrItems f (d - 1) r1 with
               | .error e => .error e
               | .ok (xs, rest) => .ok (.array xs, rest)) := rfl

theorem pv_arr_empty (f d : Nat) {r r2 : Bytes} (hd : d ≠ 0) (hsw : skipWs r = 93 :: r2) :
    parseValue (f + 1) d (91 :: r) = .ok (.array .nil, r2) := by
  rw [pv_arr_head, if_neg hd, hsw]

theorem pv_arr_items (f d : Nat) {r : Bytes} (hd : d ≠ 0) {b : Nat} {r1 : Bytes}
    (hsw : skipWs r = b :: r1) (hb : b ≠ 93) :
    parseValue (f + 1) d (91 :: r) =
      (match parseArrItems f (d - 1) (b :: r1) with
       | .error e => .error e
       | .ok (xs, rest) => .ok (.array xs, rest)) := by
  rw [pv_arr_head, if_neg hd, hsw]
  split
  · rename_i r2 heq
    exact absurd (by injection heq) hb
  · rfl

theorem pv_map_head (f d : Nat) (r : Bytes) :
    parseValue (f + 1) d (123 :: r) =
      (if d = 0 then .error (.depthExceeded, 123 :: r)
       else match skipWs r with
       | 125 :: r2 => .ok (.map .nil, r2)
       | r1 => match parseMapItems f (d - 1) r1 with
               | .error e => .error e
               | .ok (ps, rest) => .ok (.map ps, rest)) := rfl

theorem pv_map_empty (f d : Nat) {r r2 : Bytes} (hd : d ≠ 0) (hsw : skipWs r = 125 :: r2) :
    parseValue (f + 1) d (123 :: r) = .ok (.map .nil, r2) := by
  rw [pv_map_head, if_neg hd, hsw]

theorem pv_map_items (f d : Nat) {r : Bytes} (hd : d ≠ 0) {b : Nat} {r1 : Bytes}
    (hsw : skipWs r = b :: r1) (hb : b ≠ 125) :
    parseValue (f + 1) d (123 :: r) =
      (match parseMapItems f (d - 1) (b :: r1) with
       | .error e => .error e
       | .ok (ps, rest) => .ok (.map ps, rest)) := by
  rw [pv_map_head, if_neg hd, hsw]
  split
  · rename_i r2 heq
    exact absurd (by injection heq) hb
  · rfl

theorem pv_num (f d : Nat) {c : Nat} (r : Bytes) (hc : isDigitByte c = true) :
    parseValue (f + 1) d (c :: r) = parseNumber (c :: r) := by
  have h1 : c ≠ 110 := by simp [isDigitByte] at hc; omega
  have h2 : c ≠ 116 := by simp [isDigitByte] at hc; omega
  have h3 : c ≠ 102 := by simp [isDigitByte] at hc; omega
  have h4 : c ≠ 34 := by simp [isDigitByte] at hc; omega
  have h5 : c ≠ 91 := by simp [isDigitByte] at hc; omega
  have h6 : c ≠ 123 := by simp [isDigitByte] at hc; omega
  simp only [parseValue, if_neg h1, if_neg h2, if_neg h3, if_neg h4, if_neg h5, if_neg h6,
    if_pos (Or.inr hc)]

theorem pv_minus (f d : Nat) (r : Bytes) :
    parseValue (f + 1) d (45 :: r) = parseNumber (45 :: r) := rfl

theorem pai_head (f d : Nat) (l : Bytes) :
    parseArrItems (f + 1) d l =
      (match parseValue f d l with
       | .error e => .error e
       | .ok (v, r) => parseArrTail f d v r) := rfl

theorem pai_ok (f d : Nat) {l : Bytes} {v : MpvNode} {r : Bytes}
    (h : parseValue f d l = .ok (v, r)) :
    parseArrItems (f + 1) d l = parseArrTail f d v r := by
  rw [pai_head, h]

theorem pat_head (f d : Nat) (v : MpvNode) (r : Bytes) :
    parseArrTail (f + 1) d v r =
      (match skipWs r with
       | 44 :: r2 =>
         match parseArrItems f d (skipWs r2) with
         | .error e => .error e
         | .ok (xs, rest) => .ok (.cons v xs, rest)
       | 93 :: r2 => .ok (.cons v .nil, r2)
       | r' => .error (.syntaxError, r')) := rfl

theorem pat_close (f d : Nat) (v : MpvNode) {r r2 : Bytes} (hsw : skipWs r = 93 :: r2) :
    parseArrTail (f + 1) d v r = .ok (.cons v .nil, r2) := by
  rw [pat_head, hsw]

theorem pat_comma (f d : Nat) (v : MpvNode) {r r2 : Bytes} (hsw : skipWs r = 44 :: r2) :
    parseArrTail (f + 1) d v r =
      (match parseArrItems f d (skipWs r2) with
       | .error e => .error e
       | .ok (xs, rest) => .ok (.cons v xs, rest)) := by
  rw [pat_head, hsw]

theorem pmi_quote (f d : Nat) (r : Bytes) :
    parseMapItems (f + 1) d (34 :: r) =
      (match parseStr r with
       | .error e => .error e
       | .ok (k, r1) =>
         match skipWs r1 with
         | 58 :: r2 =>
           match parseValue f d (skipWs r2) with
           | .error e => .error e
           | .ok (v, r3) => parseMapTail f d k v r3
         | r' => .error (.syntaxError, r')) := rfl

theorem pmi_ok (f d : Nat) {r k r1 r2 r3 : Bytes} {v : MpvNode}
    (hk : parseStr r = .ok (k, r1)) (hc : skipWs r1 = 58 :: r2)
    (hv : parseValue f d (skipWs r2) = .ok (v, r3)) :
    parseMapItems (f + 1) d (34 :: r) = parseMapTail f d k v r3 := by
  rw [pmi_quote, hk]
  show ((match skipWs r1 with
        | 58 :: r2 =>
          match parseValue f d (skipWs r2) with
          | .error e => .error e
          | .ok (v, r3) => parseMapTail f d k v r3
        | r' => .error (.syntaxError, r')) : Except (JErr × Bytes) (PairList × Bytes)) = _
  rw [hc]
  show ((match parseValue f d (skipWs r2) with
        | .error e => .error e
        | .ok (v, r3) => parseMapTail f d k v r3) : Except (JErr × Bytes) (PairList × Bytes)) = _
  rw [hv]

theorem pmt_head (f d : Nat) (k : Bytes) (v : MpvNode) (r : Bytes) :
    parseMapTail (f + 1) d k v r =
      (match skipWs r with
       | 44 :: r4 =>
         match parseMapItems f d (skipWs r4) with
         | .error e => .error e
         | .ok (ps, rest) => .ok (.cons k v ps, rest)
       | 125 :: r4 => .ok (.cons k v .nil, r4)
       | r' => .error (.syntaxError, r')) := rfl

theorem pmt_close (f d : Nat) (k : Bytes) (v : MpvNode) {r r2 : Bytes}
    (hsw : skipWs r = 125 :: r2) :
    parseMapTail (f + 1) d k v r = .ok (.cons k v .nil, r2) := by
  rw [pmt_head, hsw]

theorem pmt_comma (f d : Nat) (k : Bytes) (v : MpvNode) {r r2 : Bytes}
    (hsw : skipWs r = 44 :: r2) :
    parseMapTail (f + 1) d k v r =
      (match parseMapItems f d (skipWs r2) with
       | .error e => .error e
       | .ok (ps, rest) => .ok (.cons k v ps, rest)) := by
  rw [pmt_head, hsw]

/-! ## The mutual induction principle for the value model -/

theorem mpv_mutual_ind {P : MpvNode → Prop} {Q : NodeList → Prop} {R : PairList → Prop}
    (h1 : P .none) (h2 : ∀ s, P (.str s)) (h3 : ∀ b, P (.flag b)) (h4 : ∀ i, P (.int64 i))
    (h5 : ∀ d, P (.double d)) (h6 : ∀ xs, Q xs → P (.array xs))
    (h7 : ∀ ps, R ps → P (.map ps)) (h8 : ∀ ba, P (.byteArray ba))
    (h9 : Q .nil) (h10 : ∀ hd tl, P hd → Q tl → Q (.cons hd tl))
    (h11 : R .nil) (h12 : ∀ k v tl, P v → R tl → R (.cons k v tl)) :
    (∀ t, P t) ∧ (∀ xs, Q xs) ∧ (∀ ps, R ps) :=
  ⟨fun t => @MpvNode.rec P Q R h1 h2 h3 h4 h5 h6 h7 h8 h9 h10 h11 h12 t,
   fun xs => @NodeList.rec P Q R h1 h2 h3 h4 h5 h6 h7 h8 h9 h10 h11 h12 xs,
   fun ps => @PairList.rec P Q R h1 h2 h3 h4 h5 h6 h7 h8 h9 h10 h11 h12 ps⟩

/-! ## Small facts about the writers -/

theorem combineW_ok {a b : Except JErr Bytes} {x y : Bytes} (f : Bytes → Bytes → Bytes)
    (ha : a = .ok x) (hb : b = .ok y) : combineW a b f = .ok (f x y) := by
  rw [ha, hb]
  rfl

/-- The first byte a writer can emit for a value: a literal keyword head, a quote,
a bracket, a brace, a minus sign or a digit. -/
def writerHead (l : Bytes) : Prop :=
  ∃ h0 t0, l = h0 :: t0 ∧
    (h0 = 110 ∨ h0 = 116 ∨ h0 = 102 ∨ h0 = 34 ∨ h0 = 91 ∨ h0 = 123 ∨ h0 = 45 ∨
      isDigitByte h0 = true)

theorem writerHead_facts {l : Bytes} (h : writerHead l) :
    ∃ h0 t0, l = h0 :: t0 ∧ isWsByte h0 = false ∧ h0 ≠ 93 ∧ h0 ≠ 125 := by
  obtain ⟨h0, t0, rfl, hd⟩ := h
  refine ⟨h0, t0, rfl, ?_, ?_, ?_⟩ <;>
    (simp [isWsByte, isDigitByte] at hd ⊢ <;> omega)

theorem numStop_sep {b : Nat} (x : Bytes)
    (hb : b = 44 ∨ b = 93 ∨ b = 125 ∨ b = 10) : numStop (b :: x) = true := by
  simp [numStop, isDigitByte]
  omega

theorem intBytes_head (i : Int) :
    ∃ h0 t0, intBytes i = h0 :: t0 ∧ (h0 = 45 ∨ isDigitByte h0 = true) := by
  rw [intBytes_eq]
  by_cases hi : i < 0
  · rw [if_pos hi]
    exact ⟨45, _, rfl, Or.inl rfl⟩
  · rw [if_neg hi, List.nil_append]
    obtain ⟨d0, t, hnb, hd0⟩ := natBytes_exists_cons i.natAbs
    exact ⟨d0 + 48, t, hnb, Or.inr (by simp [isDigitByte]; omega)⟩

theorem strLit_append (s r : Bytes) : strLit s ++ r = 34 :: (escBody s ++ 34 :: r) := by
  simp [strLit]

/-! ## The roundtrip statements

`RT t` says: if the writer can encode `t`, then parsing the compact output (with
anything number-terminating appended) yields exactly the re-parse normal form
`normV t` and consumes exactly the written bytes.  `RTQ`/`RTR` are the companion
statements for array and object bodies. -/

/-- The serialized elements of a non-empty array (without the brackets, with the
closing bracket). -/
def writeArrItems : NodeList → Except JErr Bytes
  | .nil => .ok []
  | .cons x tl => combineW (writeNode x) (writeArrTail tl) (fun a b => a ++ b)

/-- The serialized members of a non-empty object (without the braces, with the
closing brace). -/
def writeMapItems : PairList → Except JErr Bytes
  | .nil => .ok []
  | .cons k v tl =>
    combineW (writeNode v) (writeMapTail tl) (fun bv bt => strLit k ++ 58 :: bv ++ bt)

theorem writeNode_array_cons (x : MpvNode) (tl : NodeList) {bI : Bytes}
    (h : writeArrItems (.cons x tl) = .ok bI) :
    writeNode (.array (.cons x tl)) = .ok (91 :: bI) := by
  rcases hx : writeNode x with e | bx
  · simp only [writeArrItems, combineW, hx] at h
    cases h
  · rcases ht : writeArrTail tl with e | bt
    · simp only [writeArrItems, combineW, hx, ht] at h
      cases h
    · simp only [writeArrItems, combineW, hx, ht] at h
      injection h with h
      subst h
      simp only [writeNode, combineW, hx, ht, List.cons_append]

theorem writeNode_map_cons (k : Bytes) (v : MpvNode) (tl : PairList) {bI : Bytes}
    (h : writeMapItems (.cons k v tl) = .ok bI) :
    writeNode (.map (.cons k v tl)) = .ok (123 :: bI) := by
  rcases hx : writeNode v with e | bv
  · simp only [writeMapItems, combineW, hx] at h
    cases h
  · rcases ht : writeMapTail tl with e | bt
    · simp only [writeMapItems, combineW, hx, ht] at h
      cases h
    · simp only [writeMapItems, combineW, hx, ht] at h
      injection h with h
      subst h
      simp only [writeNode, combineW, hx, ht, List.cons_append]

/-- Roundtrip property of one value. -/
def RT (t : MpvNode) : Prop :=
  hasBad t = false →
    ∃ b, writeNode t = .ok b ∧ writerHead b ∧
      ∀ d r f, treeDepth t ≤ d → numStop r = true → 3 * (b ++ r).length + 1 ≤ f →
        parseValue f d (b ++ r) = .ok (normV t, r)

/-- Roundtrip property of an array body. -/
def RTQ (xs : NodeList) : Prop :=
  hasBadList xs = false →
    ∃ bt, writeArrTail xs = .ok bt ∧ (∃ u, bt = 44 :: u ∨ bt = 93 :: u) ∧
      (∀ (v : MpvNode) d r f, depthList xs ≤ d → numStop r = true →
          3 * (bt ++ r).length + 4 ≤ f →
          parseArrTail f d v (bt ++ r) = .ok (.cons v (normL xs), r)) ∧
      (∀ x tl, xs = .cons x tl →
        ∃ bI, writeArrItems xs = .ok bI ∧ writerHead bI ∧
          ∀ d r f, depthList xs ≤ d → numStop r = true →
            3 * (bI ++ r).length + 2 ≤ f →
            parseArrItems f d (bI ++ r) = .ok (normL xs, r))

/-- Roundtrip property of an object body. -/
def RTR (ps : PairList) : Prop :=
  hasBadPairs ps = false →
    ∃ bt, writeMapTail ps = .ok bt ∧ (∃ u, bt = 44 :: u ∨ bt = 125 :: u) ∧
      (∀ (k : Bytes) (v : MpvNode) d r f, depthPairs ps ≤ d → numStop r = true →
          3 * (bt ++ r).length + 4 ≤ f →
          parseMapTail f d k v (bt ++ r) = .ok (.cons k v (normP ps), r)) ∧
      (∀ k0 v0 tl, ps = .cons k0 v0 tl →
        ∃ bI, writeMapItems ps = .ok bI ∧ (∃ u, bI = 34 :: u) ∧
          ∀ d r f, depthPairs ps ≤ d → numStop r = true →
            3 * (bI ++ r).length + 2 ≤ f →
            parseMapItems f d (bI ++ r) = .ok (normP ps, r))

theorem numStop_tailhead {bt : Bytes} (r : Bytes)
    (h : ∃ u, bt = 44 :: u ∨ bt = 93 :: u ∨ bt = 125 :: u ∨ bt = 10 :: u) :
    numStop (bt ++ r) = true := by
  obtain ⟨u, h | h | h | h⟩ := h <;> subst h <;> exact numStop_sep _ (by omega)

/-! ### The leaf cases -/

theorem RT_none : RT .none := by
  intro _
  refine ⟨[110, 117, 108, 108], rfl, ⟨110, _, rfl, by tauto⟩, ?_⟩
  intro d r f _ _ hf
  obtain ⟨f2, rfl⟩ : ∃ f2, f = f2 + 1 := ⟨f - 1, by omega⟩
  exact pv_null f2 d r

theorem RT_flag (b : Bool) : RT (.flag b) := by
  intro _
  cases b
  · refine ⟨[102, 97, 108, 115, 101], rfl, ⟨102, _, rfl, by tauto⟩, ?_⟩
    intro d r f _ _ hf
    obtain ⟨f2, rfl⟩ : ∃ f2, f = f2 + 1 := ⟨f - 1, by omega⟩
    exact pv_false f2 d r
  · refine ⟨[116, 114, 117, 101], rfl, ⟨116, _, rfl, by tauto⟩, ?_⟩
    intro d r f _ _ hf
    obtain ⟨f2, rfl⟩ : ∃ f2, f = f2 + 1 := ⟨f - 1, by omega⟩
    exact pv_true f2 d r

theorem RT_str (s : Bytes) : RT (.str s) := by
  intro _
  refine ⟨strLit s, rfl, ⟨34, _, rfl, by tauto⟩, ?_⟩
  intro d r f _ _ hf
  obtain ⟨f2, rfl⟩ : ∃ f2, f = f2 + 1 := ⟨f - 1, by omega⟩
  rw [strLit_append]
  exact pv_str_ok f2 d (parseStr_escBody s r)

theorem RT_int64 (i : Int) : RT (.int64 i) := by
  intro _
  have habs : (i.natAbs : Int) = i ∨ (i.natAbs : Int) = -i := by
    rcases Int.natAbs_eq i with h | h
    · exact Or.inl h.symm
    · exact Or.inr (by omega)
  obtain ⟨h0, t0, hib, hh0⟩ := intBytes_head i
  refine ⟨intBytes i, rfl, ⟨h0, t0, hib, by tauto⟩, ?_⟩
  intro d r f _ hr hf
  obtain ⟨f2, rfl⟩ : ∃ f2, f = f2 + 1 := ⟨f - 1, by omega⟩
  by_cases hi : i < 0
  · have hn : (i.natAbs : Int) = -i := by rcases habs with h | h <;> omega
    have h45 : intBytes i = 45 :: natBytes i.natAbs := by simp [intBytes, hi]
    rw [h45, List.cons_append, pv_minus, ← List.cons_append,
      show (45 :: natBytes i.natAbs : Bytes) = [45] ++ natBytes i.natAbs from rfl,
      List.append_assoc]
    rw [show ([45] : Bytes) ++ (natBytes i.natAbs ++ r) = 45 :: natBytes i.natAbs ++ r from rfl]
    rw [parseNumber_neg_natBytes _ _ hr]
    rw [show normV (.int64 i) = if -(2 ^ 63) ≤ i ∧ i < 2 ^ 63 then .int64 i
        else .double (.finite ⟨i, 0⟩) from rfl]
    by_cases hle : (i.natAbs : Int) ≤ 2 ^ 63
    · rw [if_pos hle, if_pos (by omega), hn, neg_neg]
    · rw [if_neg hle, if_neg (by omega), hn, neg_neg]
  · have hn : (i.natAbs : Int) = i := by rcases habs with h | h <;> omega
    have hnn : intBytes i = natBytes i.natAbs := by
      rw [intBytes_eq, if_neg hi, List.nil_append]
    obtain ⟨d0, t, hnb, hd0⟩ := natBytes_exists_cons i.natAbs
    rw [hnn, hnb, List.cons_append, pv_num f2 d _ (by simp [isDigitByte]; omega),
      ← List.cons_append, ← hnb, parseNumber_natBytes _ _ hr]
    rw [show normV (.int64 i) = if -(2 ^ 63) ≤ i ∧ i < 2 ^ 63 then .int64 i
        else .double (.finite ⟨i, 0⟩) from rfl]
    by_cases hlt : (i.natAbs : Int) < 2 ^ 63
    · rw [if_pos hlt, if_pos (by omega), hn]
    · rw [if_neg hlt, if_neg (by omega), hn]

theorem RT_double (dd : MpDouble) : RT (.double dd) := by
  intro hbad
  cases dd with
  | finite dd =>
    obtain ⟨h0, t0, hib, hh0⟩ := intBytes_head dd.mant
    have hhead : ∃ t1, decBytes dd = h0 :: t1 := by
      refine ⟨t0 ++ 101 :: intBytes dd.exp10, ?_⟩
      rw [decBytes, hib, List.cons_append]
    obtain ⟨t1, hdb⟩ := hhead
    refine ⟨decBytes dd, rfl, ⟨h0, t1, hdb, by tauto⟩, ?_⟩
    intro d r f _ hr hf
    obtain ⟨f2, rfl⟩ : ∃ f2, f = f2 + 1 := ⟨f - 1, by omega⟩
    have hstep : parseValue (f2 + 1) d (decBytes dd ++ r) = parseNumber (decBytes dd ++ r) := by
      rw [hdb, List.cons_append]
      rcases hh0 with h | h
      · subst h
        exact pv_minus f2 d _
      · exact pv_num f2 d _ h
    rw [hstep, parseNumber_decBytes _ _ hr]
    rfl
  | nan => simp [hasBad] at hbad
  | posInf => simp [hasBad] at hbad
  | negInf => simp [hasBad] at hbad

theorem RT_byteArray (ba : Bytes) : RT (.byteArray ba) := by
  intro hbad
  simp [hasBad] at hbad

/-! ### The container cases -/

theorem bx_len_pos {bx : Bytes} (h : writerHead bx) : 1 ≤ bx.length := by
  obtain ⟨h0, t0, rfl, _⟩ := h
  simp

theorem strLit_length (s : Bytes) : (strLit s).length = (escBody s).length + 2 := by
  simp [strLit]

theorem RTQ_nil : RTQ .nil := by
  intro _
  refine ⟨[93], rfl, ⟨[], Or.inr rfl⟩, ?_, ?_⟩
  · intro v d r f _ _ hf
    obtain ⟨f2, rfl⟩ : ∃ f2, f = f2 + 1 := ⟨f - 1, by omega⟩
    have hsw : skipWs (([93] : Bytes) ++ r) = 93 :: r := by
      rw [show ([93] : Bytes) ++ r = 93 :: r from rfl]
      exact skipWs_cons_nonws r (by rfl)
    exact pat_close f2 d v hsw
  · intro x tl h
    cases h

theorem RTR_nil : RTR .nil := by
  intro _
  refine ⟨[125], rfl, ⟨[], Or.inr rfl⟩, ?_, ?_⟩
  · intro k v d r f _ _ hf
    obtain ⟨f2, rfl⟩ : ∃ f2, f = f2 + 1 := ⟨f - 1, by omega⟩
    have hsw : skipWs (([125] : Bytes) ++ r) = 125 :: r := by
      rw [show ([125] : Bytes) ++ r = 125 :: r from rfl]
      exact skipWs_cons_nonws r (by rfl)
    exact pmt_close f2 d k v hsw
  · intro k0 v0 tl h
    cases h

theorem RTQ_cons (x : MpvNode) (tl : NodeList) (hP : RT x) (hQ : RTQ tl) :
    RTQ (.cons x tl) := by
  intro hbad
  simp only [hasBadList, Bool.or_eq_false_iff] at hbad
  obtain ⟨bx, hwx, hheadx, hparsex⟩ := hP hbad.1
  obtain ⟨bt, hwt, hheadt, htail, _⟩ := hQ hbad.2
  have hwt2 : writeArrTail (.cons x tl) = .ok (44 :: bx ++ bt) := by
    simp only [writeArrTail, combineW, hwx, hwt, List.cons_append]
  have hwI : writeArrItems (.cons x tl) = .ok (bx ++ bt) := by
    simp only [writeArrItems, combineW, hwx, hwt]
  obtain ⟨h0, t0, hb0, hws0, h93, h125⟩ := writerHead_facts hheadx
  obtain ⟨u, hu⟩ := hheadt
  have hbtlen : 1 ≤ bt.length := by rcases hu with h | h <;> (subst h; simp)
  have hNS : ∀ r : Bytes, numStop (bt ++ r) = true := fun r =>
    numStop_tailhead r ⟨u, by tauto⟩
  have hitemsC : ∀ d r f, depthList (.cons x tl) ≤ d → numStop r = true →
      3 * ((bx ++ bt) ++ r).length + 2 ≤ f →
      parseArrItems f d ((bx ++ bt) ++ r) = .ok (normL (.cons x tl), r) := by
    intro d r f hd hr hf
    obtain ⟨f2, rfl⟩ : ∃ f2, f = f2 + 1 := ⟨f - 1, by omega⟩
    have hdx : treeDepth x ≤ d := le_trans (le_max_left _ _) hd
    have hdt : depthList tl ≤ d := le_trans (le_max_right _ _) hd
    have hbxlen : 1 ≤ bx.length := bx_len_pos hheadx
    simp only [List.length_append] at hf
    have hpv : parseValue f2 d (bx ++ (bt ++ r)) = .ok (normV x, bt ++ r) := by
      apply hparsex d (bt ++ r) f2 hdx (hNS r)
      simp only [List.length_append]
      omega
    rw [List.append_assoc, pai_ok f2 d hpv,
      htail (normV x) d r f2 hdt hr (by simp only [List.length_append]; omega)]
    rfl
  refine ⟨44 :: bx ++ bt, hwt2, ⟨bx ++ bt, Or.inl rfl⟩, ?_, ?_⟩
  · intro v d r f hd hr hf
    obtain ⟨f2, rfl⟩ : ∃ f2, f = f2 + 1 := ⟨f - 1, by omega⟩
    have h44 : skipWs ((44 :: bx ++ bt) ++ r) = 44 :: ((bx ++ bt) ++ r) := by
      rw [show (44 :: bx ++ bt) ++ r = 44 :: ((bx ++ bt) ++ r) from by
        simp [List.cons_append, List.append_assoc]]
      exact skipWs_cons_nonws _ (by rfl)
    rw [pat_comma f2 d v h44]
    have hsw2 : skipWs ((bx ++ bt) ++ r) = (bx ++ bt) ++ r := by
      rw [hb0, List.cons_append, List.cons_append]
      exact skipWs_cons_nonws _ hws0
    rw [hsw2, hitemsC d r f2 hd hr (by
      simp only [List.length_append, List.length_cons] at hf ⊢
      omega)]
  · intro x' tl' _
    refine ⟨bx ++ bt, hwI, ⟨h0, t0 ++ bt, by rw [hb0, List.cons_append], by
      obtain ⟨_, _, heq, hd0⟩ := hheadx
      rw [hb0] at heq
      injection heq with heq1 _
      rw [← heq1] at hd0
      exact hd0⟩, hitemsC⟩

theorem RTR_cons (k : Bytes) (v : MpvNode) (tl : PairList) (hP : RT v) (hR : RTR tl) :
    RTR (.cons k v tl) := by
  intro hbad
  simp only [hasBadPairs, Bool.or_eq_false_iff] at hbad
  obtain ⟨bv, hwv, hheadv, hparsev⟩ := hP hbad.1
  obtain ⟨bt, hwt, hheadt, htail, _⟩ := hR hbad.2
  have hwt2 : writeMapTail (.cons k v tl) = .ok (44 :: strLit k ++ 58 :: bv ++ bt) := by
    simp only [writeMapTail, combineW, hwv, hwt, List.cons_append]
  have hwI : writeMapItems (.cons k v tl) = .ok (strLit k ++ 58 :: bv ++ bt) := by
    simp only [writeMapItems, combineW, hwv, hwt]
  obtain ⟨hv0, tv0, hbv0, hwsv0, hv93, hv125⟩ := writerHead_facts hheadv
  obtain ⟨u, hu⟩ := hheadt
  have hbtlen : 1 ≤ bt.length := by rcases hu with h | h <;> (subst h; simp)
  have hbvlen : 1 ≤ bv.length := bx_len_pos hheadv
  have hNS : ∀ r : Bytes, numStop (bt ++ r) = true := fun r =>
    numStop_tailhead r ⟨u, by tauto⟩
  have hitemsC : ∀ d r f, depthPairs (.cons k v tl) ≤ d → numStop r = true →
      3 * ((strLit k ++ 58 :: bv ++ bt) ++ r).length + 2 ≤ f →
      parseMapItems f d ((strLit k ++ 58 :: bv ++ bt) ++ r)
        = .ok (normP (.cons k v tl), r) := by
    intro d r f hd hr hf
    obtain ⟨f2, rfl⟩ : ∃ f2, f = f2 + 1 := ⟨f - 1, by omega⟩
    have hdv : treeDepth v ≤ d := le_trans (le_max_left _ _) hd
    have hdt : depthPairs tl ≤ d := le_trans (le_max_right _ _) hd
    simp only [List.length_append, strLit_length, List.length_cons] at hf
    have hshape : (strLit k ++ 58 :: bv ++ bt) ++ r
        = 34 :: (escBody k ++ 34 :: (58 :: (bv ++ (bt ++ r)))) := by
      rw [List.append_assoc, strLit_append]
      simp [List.cons_append, List.append_assoc]
    rw [hshape]
    have hc : skipWs (58 :: (bv ++ (bt ++ r))) = 58 :: (bv ++ (bt ++ r)) :=
      skipWs_cons_nonws _ (by rfl)
    have hswv : skipWs (bv ++ (bt ++ r)) = bv ++ (bt ++ r) := by
      rw [hbv0, List.cons_append]
      exact skipWs_cons_nonws _ hwsv0
    have hpv : parseValue f2 d (skipWs (bv ++ (bt ++ r))) = .ok (normV v, bt ++ r) := by
      rw [hswv]
      apply hparsev d (bt ++ r) f2 hdv (hNS r)
      simp only [List.length_append]
      omega
    rw [pmi_ok f2 d (parseStr_escBody k _) hc hpv,
      htail k (normV v) d r f2 hdt hr (by simp only [List.length_append]; omega)]
    rfl
  refine ⟨44 :: strLit k ++ 58 :: bv ++ bt, hwt2,
    ⟨strLit k ++ 58 :: bv ++ bt, Or.inl rfl⟩, ?_, ?_⟩
  · intro k' v' d r f hd hr hf
    obtain ⟨f2, rfl⟩ : ∃ f2, f = f2 + 1 := ⟨f - 1, by omega⟩
    have h44 : skipWs ((44 :: strLit k ++ 58 :: bv ++ bt) ++ r)
        = 44 :: ((strLit k ++ 58 :: bv ++ bt) ++ r) := by
      rw [show (44 :: strLit k ++ 58 :: bv ++ bt) ++ r
          = 44 :: ((strLit k ++ 58 :: bv ++ bt) ++ r) from by
        simp [List.cons_append, List.append_assoc]]
      exact skipWs_cons_nonws _ (by rfl)
    rw [pmt_comma f2 d k' v' h44]
    have hsw2 : skipWs ((strLit k ++ 58 :: bv ++ bt) ++ r)
        = (strLit k ++ 58 :: bv ++ bt) ++ r := by
      rw [show (strLit k ++ 58 :: bv ++ bt) ++ r
          = 34 :: ((escBody k ++ [34]) ++ (58 :: bv ++ bt) ++ r) from by
        simp [strLit, List.cons_append, List.append_assoc]]
      exact skipWs_cons_nonws _ (by rfl)
    rw [hsw2, hitemsC d r f2 hd hr (by
      simp only [List.length_append, List.length_cons] at hf ⊢
      omega)]
  · intro k0 v0 tl0 _
    refine ⟨strLit k ++ 58 :: bv ++ bt, hwI, ⟨(escBody k ++ [34]) ++ 58 :: bv ++ bt, by
      simp [strLit, List.cons_append, List.append_assoc]⟩, hitemsC⟩

theorem RT_array (xs : NodeList) (hQ : RTQ xs) : RT (.array xs) := by
  intro hbad
  have hb : hasBadList xs = false := by simpa [hasBad] using hbad
  cases xs with
  | nil =>
    refine ⟨[91, 93], rfl, ⟨91, _, rfl, by tauto⟩, ?_⟩
    intro d r f hd hr hf
    obtain ⟨f2, rfl⟩ : ∃ f2, f = f2 + 1 := ⟨f - 1, by omega⟩
    have hd0 : d ≠ 0 := by
      simp only [treeDepth] at hd
      omega
    have hsw : skipWs (93 :: r) = 93 :: r := skipWs_cons_nonws r (by rfl)
    rw [show ([91, 93] : Bytes) ++ r = 91 :: 93 :: r from rfl, pv_arr_empty f2 d hd0 hsw]
    rfl
  | cons x tl =>
    obtain ⟨bt, hwt, hheadt, htail, hitems⟩ := hQ hb
    obtain ⟨bI, hwI, hheadI, hparseI⟩ := hitems x tl rfl
    refine ⟨91 :: bI, writeNode_array_cons x tl hwI, ⟨91, bI, rfl, by tauto⟩, ?_⟩
    intro d r f hd hr hf
    obtain ⟨f2, rfl⟩ : ∃ f2, f = f2 + 1 := ⟨f - 1, by omega⟩
    obtain ⟨h0, t0, hb0, hws0, h93, h125⟩ := writerHead_facts hheadI
    have hd0 : d ≠ 0 := by
      simp only [treeDepth] at hd
      omega
    have hsw : skipWs (bI ++ r) = h0 :: (t0 ++ r) := by
      rw [hb0, List.cons_append]
      exact skipWs_cons_nonws _ hws0
    rw [List.cons_append, pv_arr_items f2 d hd0 hsw h93]
    have hrun : parseArrItems f2 (d - 1) (h0 :: (t0 ++ r)) = .ok (normL (.cons x tl), r) := by
      rw [show h0 :: (t0 ++ r) = (h0 :: t0) ++ r from rfl, ← hb0]
      apply hparseI (d - 1) r f2 (by simp only [treeDepth] at hd; omega) hr
      simp only [List.length_append, List.length_cons] at hf ⊢
      omega
    rw [hrun]
    rfl

theorem RT_map (ps : PairList) (hR : RTR ps) : RT (.map ps) := by
  intro hbad
  have hb : hasBadPairs ps = false := by simpa [hasBad] using hbad
  cases ps with
  | nil =>
    refine ⟨[123, 125], rfl, ⟨123, _, rfl, by tauto⟩, ?_⟩
    intro d r f hd hr hf
    obtain ⟨f2, rfl⟩ : ∃ f2, f = f2 + 1 := ⟨f - 1, by omega⟩
    have hd0 : d ≠ 0 := by
      simp only [treeDepth] at hd
      omega
    have hsw : skipWs (125 :: r) = 125 :: r := skipWs_cons_nonws r (by rfl)
    rw [show ([123, 125] : Bytes) ++ r = 123 :: 125 :: r from rfl, pv_map_empty f2 d hd0 hsw]
    rfl
  | cons k v tl =>
    obtain ⟨bt, hwt, hheadt, htail, hitems⟩ := hR hb
    obtain ⟨bI, hwI, ⟨u, hbI34⟩, hparseI⟩ := hitems k v tl rfl
    refine ⟨123 :: bI, writeNode_map_cons k v tl hwI, ⟨123, bI, rfl, by tauto⟩, ?_⟩
    intro d r f hd hr hf
    obtain ⟨f2, rfl⟩ : ∃ f2, f = f2 + 1 := ⟨f - 1, by omega⟩
    have hd0 : d ≠ 0 := by
      simp only [treeDepth] at hd
      omega
    have hsw : skipWs (bI ++ r) = 34 :: (u ++ r) := by
      rw [hbI34, List.cons_append]
      exact skipWs_cons_nonws _ (by rfl)
    rw [List.cons_append, pv_map_items f2 d hd0 hsw (by omega)]
    have hrun : parseMapItems f2 (d - 1) (34 :: (u ++ r)) = .ok (normP (.cons k v tl), r) := by
      rw [show (34 : Nat) :: (u ++ r) = (34 :: u) ++ r from rfl, ← hbI34]
      apply hparseI (d - 1) r f2 (by simp only [treeDepth] at hd; omega) hr
      simp only [List.length_append, List.length_cons] at hf ⊢
      omega
    rw [hrun]
    rfl

/-- The compact-writer roundtrip, proved for values, array bodies and object
bodies simultaneously. -/
theorem roundtrip_all : (∀ t, RT t) ∧ (∀ xs, RTQ xs) ∧ (∀ ps, RTR ps) :=
  mpv_mutual_ind RT_none RT_str RT_flag RT_int64 RT_double RT_array RT_map
    RT_byteArray RTQ_nil RTQ_cons RTR_nil RTR_cons

/-! ## The pretty-writer roundtrip -/

/-- Roundtrip property of one value under the pretty writer, at every
indentation level. -/
def RTP (t : MpvNode) : Prop :=
  hasBad t = false →
    ∀ ind, ∃ b, writePrettyNode ind t = .ok b ∧ writerHead b ∧
      ∀ d r f, treeDepth t ≤ d → numStop r = true → 3 * (b ++ r).length + 1 ≤ f →
        parseValue f d (b ++ r) = .ok (normV t, r)

/-- Pretty-writer roundtrip property of an array body. -/
def RTQP (xs : NodeList) : Prop :=
  hasBadList xs = false →
    ∀ ind, ∃ bt, writePrettyArrTail ind xs = .ok bt ∧ (∃ u, bt = 44 :: u ∨ bt = 10 :: u) ∧
      (∀ (v : MpvNode) d r f, depthList xs ≤ d → numStop r = true →
          3 * (bt ++ r).length + 4 ≤ f →
          parseArrTail f d v (bt ++ r) = .ok (.cons v (normL xs), r)) ∧
      (∀ x tl, xs = .cons x tl →
        ∃ bx btl, writePrettyNode (ind + 1) x = .ok bx ∧
          writePrettyArrTail ind tl = .ok btl ∧ writerHead bx ∧
          ∀ d r f, depthList xs ≤ d → numStop r = true →
            3 * ((bx ++ btl) ++ r).length + 2 ≤ f →
            parseArrItems f d ((bx ++ btl) ++ r) = .ok (normL xs, r))

/-- Pretty-writer roundtrip property of an object body. -/
def RTRP (ps : PairList) : Prop :=
  hasBadPairs ps = false →
    ∀ ind, ∃ bt, writePrettyMapTail ind ps = .ok bt ∧ (∃ u, bt = 44 :: u ∨ bt = 10 :: u) ∧
      (∀ (k : Bytes) (v : MpvNode) d r f, depthPairs ps ≤ d → numStop r = true →
          3 * (bt ++ r).length + 4 ≤ f →
          parseMapTail f d k v (bt ++ r) = .ok (.cons k v (normP ps), r)) ∧
      (∀ k0 v0 tl, ps = .cons k0 v0 tl →
        ∃ bv btl, writePrettyNode (ind + 1) v0 = .ok bv ∧
          writePrettyMapTail ind tl = .ok btl ∧ writerHead bv ∧
          ∀ d r f, depthPairs ps ≤ d → numStop r = true →
            3 * ((strLit k0 ++ 58 :: 32 :: bv ++ btl) ++ r).length + 2 ≤ f →
            parseMapItems f d ((strLit k0 ++ 58 :: 32 :: bv ++ btl) ++ r)
              = .ok (normP ps, r))

theorem RTP_none : RTP .none := by
  intro h ind
  obtain ⟨b, hw, hh, hp⟩ := RT_none h
  exact ⟨b, by rw [show writePrettyNode ind .none = writeNode .none from rfl, hw], hh, hp⟩

theorem RTP_str (s : Bytes) : RTP (.str s) := by
  intro h ind
  obtain ⟨b, hw, hh, hp⟩ := RT_str s h
  exact ⟨b, by rw [show writePrettyNode ind (.str s) = writeNode (.str s) from rfl, hw], hh, hp⟩

theorem RTP_flag (bl : Bool) : RTP (.flag bl) := by
  intro h ind
  obtain ⟨b, hw, hh, hp⟩ := RT_flag bl h
  exact ⟨b, by rw [show writePrettyNode ind (.flag bl) = writeNode (.flag bl) from rfl, hw],
    hh, hp⟩

theorem RTP_int64 (i : Int) : RTP (.int64 i) := by
  intro h ind
  obtain ⟨b, hw, hh, hp⟩ := RT_int64 i h
  exact ⟨b, by rw [show writePrettyNode ind (.int64 i) = writeNode (.int64 i) from rfl, hw],
    hh, hp⟩

theorem RTP_double (dd : MpDouble) : RTP (.double dd) := by
  intro h ind
  obtain ⟨b, hw, hh, hp⟩ := RT_double dd h
  exact ⟨b, by rw [show writePrettyNode ind (.double dd) = writeNode (.double dd) from rfl, hw],
    hh, hp⟩

theorem RTP_byteArray (ba : Bytes) : RTP (.byteArray ba) := by
  intro hbad
  simp [hasBad] at hbad

theorem RTQP_nil : RTQP .nil := by
  intro _ ind
  refine ⟨10 :: indentB ind ++ [93], rfl,
    ⟨indentB ind ++ [93], Or.inr (List.cons_append 10 (indentB ind) [93])⟩, ?_, ?_⟩
  · intro v d r f _ _ hf
    obtain ⟨f2, rfl⟩ : ∃ f2, f = f2 + 1 := ⟨f - 1, by simp at hf; omega⟩
    have hsw : skipWs ((10 :: indentB ind ++ [93]) ++ r) = 93 :: r := by
      rw [show (10 :: indentB ind ++ [93]) ++ r = 10 :: (indentB ind ++ ([93] ++ r)) from by
        simp [List.cons_append, List.append_assoc]]
      rw [skipWs_cons_ws _ (by rfl), skipWs_indent]
      exact skipWs_cons_nonws r (by rfl)
    exact pat_close f2 d v hsw
  · intro x tl h
    cases h

theorem RTRP_nil : RTRP .nil := by
  intro _ ind
  refine ⟨10 :: indentB ind ++ [125], rfl,
    ⟨indentB ind ++ [125], Or.inr (List.cons_append 10 (indentB ind) [125])⟩, ?_, ?_⟩
  · intro k v d r f _ _ hf
    obtain ⟨f2, rfl⟩ : ∃ f2, f = f2 + 1 := ⟨f - 1, by simp at hf; omega⟩
    have hsw : skipWs ((10 :: indentB ind ++ [125]) ++ r) = 125 :: r := by
      rw [show (10 :: indentB ind ++ [125]) ++ r = 10 :: (indentB ind ++ ([125] ++ r)) from by
        simp [List.cons_append, List.append_assoc]]
      rw [skipWs_cons_ws _ (by rfl), skipWs_indent]
      exact skipWs_cons_nonws r (by rfl)
    exact pmt_close f2 d k v hsw
  · intro k0 v0 tl h
    cases h

theorem RTQP_cons (x : MpvNode) (tl : NodeList) (hP : RTP x) (hQ : RTQP tl) :
    RTQP (.cons x tl) := by
  intro hbad ind
  simp only [hasBadList, Bool.or_eq_false_iff] at hbad
  obtain ⟨bx, hwx, hheadx, hparsex⟩ := hP hbad.1 (ind + 1)
  obtain ⟨bt, hwt, hheadt, htail, _⟩ := hQ hbad.2 ind
  have hwt2 : writePrettyArrTail ind (.cons x tl)
      = .ok (44 :: 10 :: indentB (ind + 1) ++ bx ++ bt) := by
    simp only [writePrettyArrTail, combineW, hwx, hwt]
  obtain ⟨h0, t0, hb0, hws0, h93, h125⟩ := writerHead_facts hheadx
  obtain ⟨u, hu⟩ := hheadt
  have hbtlen : 1 ≤ bt.length := by rcases hu with h | h <;> (subst h; simp)
  have hbxlen : 1 ≤ bx.length := bx_len_pos hheadx
  have hNS : ∀ r : Bytes, numStop (bt ++ r) = true := fun r =>
    numStop_tailhead r ⟨u, by tauto⟩
  have hswI : ∀ r : Bytes, skipWs ((bx ++ bt) ++ r) = (bx ++ bt) ++ r := by
    intro r
    rw [hb0, List.cons_append, List.cons_append]
    exact skipWs_cons_nonws _ hws0
  have hitemsC : ∀ d r f, depthList (.cons x tl) ≤ d → numStop r = true →
      3 * ((bx ++ bt) ++ r).length + 2 ≤ f →
      parseArrItems f d ((bx ++ bt) ++ r) = .ok (normL (.cons x tl), r) := by
    intro d r f hd hr hf
    obtain ⟨f2, rfl⟩ : ∃ f2, f = f2 + 1 := ⟨f - 1, by omega⟩
    have hdx : treeDepth x ≤ d := le_trans (le_max_left _ _) hd
    have hdt : depthList tl ≤ d := le_trans (le_max_right _ _) hd
    simp only [List.length_append] at hf
    have hpv : parseValue f2 d (bx ++ (bt ++ r)) = .ok (normV x, bt ++ r) := by
      apply hparsex d (bt ++ r) f2 hdx (hNS r)
      simp only [List.length_append]
      omega
    rw [List.append_assoc, pai_ok f2 d hpv,
      htail (normV x) d r f2 hdt hr (by simp only [List.length_append]; omega)]
    rfl
  refine ⟨44 :: 10 :: indentB (ind + 1) ++ bx ++ bt, hwt2,
    ⟨10 :: indentB (ind + 1) ++ bx ++ bt, Or.inl (by
      simp [List.cons_append, List.append_assoc])⟩, ?_, ?_⟩
  · intro v d r f hd hr hf
    obtain ⟨f2, rfl⟩ : ∃ f2, f = f2 + 1 := ⟨f - 1, by omega⟩
    have hshape : (44 :: 10 :: indentB (ind + 1) ++ bx ++ bt) ++ r
        = 44 :: (10 :: (indentB (ind + 1) ++ ((bx ++ bt) ++ r))) := by
      simp [List.cons_append, List.append_assoc]
    have hsw : skipWs ((44 :: 10 :: indentB (ind + 1) ++ bx ++ bt) ++ r)
        = 44 :: (10 :: (indentB (ind + 1) ++ ((bx ++ bt) ++ r))) := by
      rw [hshape]
      exact skipWs_cons_nonws _ (by rfl)
    rw [pat_comma f2 d v hsw]
    have hsw2 : skipWs (10 :: (indentB (ind + 1) ++ ((bx ++ bt) ++ r)))
        = (bx ++ bt) ++ r := by
      rw [skipWs_cons_ws _ (by rfl), skipWs_indent, hswI r]
    rw [hsw2, hitemsC d r f2 hd hr (by
      simp only [List.length_append, List.length_cons, indentB,
        List.length_replicate] at hf ⊢
      omega)]
  · intro x' tl' heq
    injection heq with h1 h2
    subst h1
    subst h2
    exact ⟨bx, bt, hwx, hwt, hheadx, hitemsC⟩

theorem RTRP_cons (k : Bytes) (v : MpvNode) (tl : PairList) (hP : RTP v) (hR : RTRP tl) :
    RTRP (.cons k v tl) := by
  intro hbad ind
  simp only [hasBadPairs, Bool.or_eq_false_iff] at hbad
  obtain ⟨bv, hwv, hheadv, hparsev⟩ := hP hbad.1 (ind + 1)
  obtain ⟨bt, hwt, hheadt, htail, _⟩ := hR hbad.2 ind
  have hwt2 : writePrettyMapTail ind (.cons k v tl)
      = .ok (44 :: 10 :: indentB (ind + 1) ++ strLit k ++ 58 :: 32 :: bv ++ bt) := by
    simp only [writePrettyMapTail, combineW, hwv, hwt]
  obtain ⟨hv0, tv0, hbv0, hwsv0, hv93, hv125⟩ := writerHead_facts hheadv
  obtain ⟨u, hu⟩ := hheadt
  have hbtlen : 1 ≤ bt.length := by rcases hu with h | h <;> (subst h; simp)
  have hbvlen : 1 ≤ bv.length := bx_len_pos hheadv
  have hNS : ∀ r : Bytes, numStop (bt ++ r) = true := fun r =>
    numStop_tailhead r ⟨u, by tauto⟩
  have hitemsC : ∀ d r f, depthPairs (.cons k v tl) ≤ d → numStop r = true →
      3 * ((strLit k ++ 58 :: 32 :: bv ++ bt) ++ r).length + 2 ≤ f →
      parseMapItems f d ((strLit k ++ 58 :: 32 :: bv ++ bt) ++ r)
        = .ok (normP (.cons k v tl), r) := by
    intro d r f hd hr hf
    obtain ⟨f2, rfl⟩ : ∃ f2, f = f2 + 1 := ⟨f - 1, by omega⟩
    have hdv : treeDepth v ≤ d := le_trans (le_max_left _ _) hd
    have hdt : depthPairs tl ≤ d := le_trans (le_max_right _ _) hd
    simp only [List.length_append, strLit_length, List.length_cons] at hf
    have hshape : (strLit k ++ 58 :: 32 :: bv ++ bt) ++ r
        = 34 :: (escBody k ++ 34 :: (58 :: (32 :: (bv ++ (bt ++ r))))) := by
      rw [List.append_assoc, strLit_append]
      simp [List.cons_append, List.append_assoc]
    rw [hshape]
    have hc : skipWs (58 :: (32 :: (bv ++ (bt ++ r)))) = 58 :: (32 :: (bv ++ (bt ++ r))) :=
      skipWs_cons_nonws _ (by rfl)
    have hpv : parseValue f2 d (skipWs (32 :: (bv ++ (bt ++ r))))
        = .ok (normV v, bt ++ r) := by
      rw [skipWs_cons_ws _ (by rfl),
        show skipWs (bv ++ (bt ++ r)) = bv ++ (bt ++ r) from by
          rw [hbv0, List.cons_append]
          exact skipWs_cons_nonws _ hwsv0]
      apply hparsev d (bt ++ r) f2 hdv (hNS r)
      simp only [List.length_append]
      omega
    rw [pmi_ok f2 d (parseStr_escBody k _) hc hpv,
      htail k (normV v) d r f2 hdt hr (by simp only [List.length_append]; omega)]
    rfl
  refine ⟨44 :: 10 :: indentB (ind + 1) ++ strLit k ++ 58 :: 32 :: bv ++ bt, hwt2,
    ⟨10 :: indentB (ind + 1) ++ strLit k ++ 58 :: 32 :: bv ++ bt, Or.inl (by
      simp [List.cons_append, List.append_assoc])⟩, ?_, ?_⟩
  · intro k' v' d r f hd hr hf
    obtain ⟨f2, rfl⟩ : ∃ f2, f = f2 + 1 := ⟨f - 1, by omega⟩
    have hshape : (44 :: 10 :: indentB (ind + 1) ++ strLit k ++ 58 :: 32 :: bv ++ bt) ++ r
        = 44 :: (10 :: (indentB (ind + 1) ++ ((strLit k ++ 58 :: 32 :: bv ++ bt) ++ r))) := by
      simp [List.cons_append, List.append_assoc]
    have hsw : skipWs ((44 :: 10 :: indentB (ind + 1) ++ strLit k ++ 58 :: 32 :: bv ++ bt) ++ r)
        = 44 :: (10 :: (indentB (ind + 1) ++ ((strLit k ++ 58 :: 32 :: bv ++ bt) ++ r))) := by
      rw [hshape]
      exact skipWs_cons_nonws _ (by rfl)
    rw [pmt_comma f2 d k' v' hsw]
    have hsw2 : skipWs (10 :: (indentB (ind + 1) ++ ((strLit k ++ 58 :: 32 :: bv ++ bt) ++ r)))
        = (strLit k ++ 58 :: 32 :: bv ++ bt) ++ r := by
      rw [skipWs_cons_ws _ (by rfl), skipWs_indent]
      rw [show (strLit k ++ 58 :: 32 :: bv ++ bt) ++ r
          = 34 :: ((escBody k ++ [34]) ++ (58 :: 32 :: bv ++ bt) ++ r) from by
        simp [strLit, List.cons_append, List.append_assoc]]
      exact skipWs_cons_nonws _ (by rfl)
    rw [hsw2, hitemsC d r f2 hd hr (by
      simp only [List.length_append, List.length_cons, indentB,
        List.length_replicate] at hf ⊢
      omega)]
  · intro k0 v0 tl0 heq
    injection heq with hk0 hv0 htl0
    subst hk0
    subst hv0
    subst htl0
    exact ⟨bv, bt, hwv, hwt, hheadv, hitemsC⟩

theorem RTP_array (xs : NodeList) (hQ : RTQP xs) : RTP (.array xs) := by
  intro hbad ind
  have hb : hasBadList xs = false := by simpa [hasBad] using hbad
  cases xs with
  | nil =>
    refine ⟨[91, 93], rfl, ⟨91, _, rfl, by tauto⟩, ?_⟩
    intro d r f hd hr hf
    obtain ⟨f2, rfl⟩ : ∃ f2, f = f2 + 1 := ⟨f - 1, by omega⟩
    have hd0 : d ≠ 0 := by
      simp only [treeDepth] at hd
      omega
    have hsw : skipWs (93 :: r) = 93 :: r := skipWs_cons_nonws r (by rfl)
    rw [show ([91, 93] : Bytes) ++ r = 91 :: 93 :: r from rfl, pv_arr_empty f2 d hd0 hsw]
    rfl
  | cons x tl =>
    obtain ⟨bt, hwt, hheadt, htail, hitems⟩ := hQ hb ind
    obtain ⟨bx, btl, hwx, hwtl, hheadx, hparseI⟩ := hitems x tl rfl
    have hwb : writePrettyNode ind (.array (.cons x tl))
        = .ok (91 :: 10 :: indentB (ind + 1) ++ bx ++ btl) := by
      simp only [writePrettyNode, combineW, hwx, hwtl]
    refine ⟨91 :: 10 :: indentB (ind + 1) ++ bx ++ btl, hwb,
      ⟨91, (10 :: indentB (ind + 1)) ++ bx ++ btl,
        by simp [List.cons_append, List.append_assoc], by tauto⟩, ?_⟩
    intro d r f hd hr hf
    obtain ⟨f2, rfl⟩ : ∃ f2, f = f2 + 1 := ⟨f - 1, by omega⟩
    obtain ⟨h0, t0, hb0, hws0, h93, h125⟩ := writerHead_facts hheadx
    have hd0 : d ≠ 0 := by
      simp only [treeDepth] at hd
      omega
    have hshape : (91 :: 10 :: indentB (ind + 1) ++ bx ++ btl) ++ r
        = 91 :: (10 :: (indentB (ind + 1) ++ ((bx ++ btl) ++ r))) := by
      simp [List.cons_append, List.append_assoc]
    have hsw : skipWs (10 :: (indentB (ind + 1) ++ ((bx ++ btl) ++ r)))
        = h0 :: ((t0 ++ btl) ++ r) := by
      rw [skipWs_cons_ws _ (by rfl), skipWs_indent, hb0, List.cons_append, List.cons_append]
      exact skipWs_cons_nonws _ hws0
    rw [hshape, pv_arr_items f2 d hd0 hsw h93]
    have hrun : parseArrItems f2 (d - 1) (h0 :: ((t0 ++ btl) ++ r))
        = .ok (normL (.cons x tl), r) := by
      rw [show h0 :: ((t0 ++ btl) ++ r) = ((h0 :: t0) ++ btl) ++ r from by
        simp [List.cons_append, List.append_assoc], ← hb0]
      apply hparseI (d - 1) r f2 (by simp only [treeDepth] at hd; omega) hr
      simp only [List.length_append, List.length_cons, indentB, List.length_replicate] at hf ⊢
      omega
    rw [hrun]
    rfl

theorem RTP_map (ps : PairList) (hR : RTRP ps) : RTP (.map ps) := by
  intro hbad ind
  have hb : hasBadPairs ps = false := by simpa [hasBad] using hbad
  cases ps with
  | nil =>
    refine ⟨[123, 125], rfl, ⟨123, _, rfl, by tauto⟩, ?_⟩
    intro d r f hd hr hf
    obtain ⟨f2, rfl⟩ : ∃ f2, f = f2 + 1 := ⟨f - 1, by omega⟩
    have hd0 : d ≠ 0 := by
      simp only [treeDepth] at hd
      omega
    have hsw : skipWs (125 :: r) = 125 :: r := skipWs_cons_nonws r (by rfl)
    rw [show ([123, 125] : Bytes) ++ r = 123 :: 125 :: r from rfl, pv_map_empty f2 d hd0 hsw]
    rfl
  | cons k v tl =>
    obtain ⟨bt, hwt, hheadt, htail, hitems⟩ := hR hb ind
    obtain ⟨bv, btl, hwv, hwtl, hheadv, hparseI⟩ := hitems k v tl rfl
    have hwb : writePrettyNode ind (.map (.cons k v tl))
        = .ok (123 :: 10 :: indentB (ind + 1) ++ strLit k ++ 58 :: 32 :: bv ++ btl) := by
      simp only [writePrettyNode, combineW, hwv, hwtl]
    refine ⟨123 :: 10 :: indentB (ind + 1) ++ strLit k ++ 58 :: 32 :: bv ++ btl, hwb,
      ⟨123, (10 :: indentB (ind + 1)) ++ strLit k ++ 58 :: 32 :: bv ++ btl,
        by simp [List.cons_append, List.append_assoc], by tauto⟩, ?_⟩
    intro d r f hd hr hf
    obtain ⟨f2, rfl⟩ : ∃ f2, f = f2 + 1 := ⟨f - 1, by omega⟩
    have hd0 : d ≠ 0 := by
      simp only [treeDepth] at hd
      omega
    have hshape : (123 :: 10 :: indentB (ind + 1) ++ strLit k ++ 58 :: 32 :: bv ++ btl) ++ r
        = 123 :: (10 :: (indentB (ind + 1) ++ ((strLit k ++ 58 :: 32 :: bv ++ btl) ++ r))) := by
      simp [List.cons_append, List.append_assoc]
    have hsw : skipWs (10 :: (indentB (ind + 1) ++ ((strLit k ++ 58 :: 32 :: bv ++ btl) ++ r)))
        = 34 :: ((escBody k ++ [34]) ++ (58 :: 32 :: bv ++ btl) ++ r) := by
      rw [skipWs_cons_ws _ (by rfl), skipWs_indent]
      rw [show (strLit k ++ 58 :: 32 :: bv ++ btl) ++ r
          = 34 :: ((escBody k ++ [34]) ++ (58 :: 32 :: bv ++ btl) ++ r) from by
        simp [strLit, List.cons_append, List.append_assoc]]
      exact skipWs_cons_nonws _ (by rfl)
    rw [hshape, pv_map_items f2 d hd0 hsw (by omega)]
    have hrun : parseMapItems f2 (d - 1)
        (34 :: ((escBody k ++ [34]) ++ (58 :: 32 :: bv ++ btl) ++ r))
        = .ok (normP (.cons k v tl), r) := by
      rw [show (34 : Nat) :: ((escBody k ++ [34]) ++ (58 :: 32 :: bv ++ btl) ++ r)
          = (strLit k ++ 58 :: 32 :: bv ++ btl) ++ r from by
        simp [strLit, List.cons_append, List.append_assoc]]
      apply hparseI (d - 1) r f2 (by simp only [treeDepth] at hd; omega) hr
      simp only [List.length_append, List.length_cons, indentB, List.length_replicate] at hf ⊢
      omega
    rw [hrun]
    rfl

/-- The pretty-writer roundtrip, proved for values, array bodies and object
bodies simultaneously. -/
theorem roundtrip_pretty_all : (∀ t, RTP t) ∧ (∀ xs, RTQP xs) ∧ (∀ ps, RTRP ps) :=
  mpv_mutual_ind RTP_none RTP_str RTP_flag RTP_int64 RTP_double RTP_array RTP_map
    RTP_byteArray RTQP_nil RTQP_cons RTRP_nil RTRP_cons

/-! ## Producible trees: writer-safe and fixed by re-parse normalization -/

theorem producible_facts :
    (∀ t, producible t = true → hasBad t = false ∧ normV t = t) ∧
    (∀ xs, producibleList xs = true → hasBadList xs = false ∧ normL xs = xs) ∧
    (∀ ps, produciblePairs ps = true → hasBadPairs ps = false ∧ normP ps = ps) := by
  apply mpv_mutual_ind
  · intro _
    exact ⟨rfl, rfl⟩
  · intro s _
    exact ⟨rfl, rfl⟩
  · intro b _
    exact ⟨rfl, rfl⟩
  · intro i h
    have hr := of_decide_eq_true (by simpa [producible] using h)
    exact ⟨rfl, by simp [normV, hr]⟩
  · intro dd h
    cases dd with
    | finite d => exact ⟨rfl, rfl⟩
    | nan => simp [producible] at h
    | posInf => simp [producible] at h
    | negInf => simp [producible] at h
  · intro xs ih h
    have h2 := ih (by simpa [producible] using h)
    exact ⟨by simpa [hasBad] using h2.1, by simp [normV, h2.2]⟩
  · intro ps ih h
    have h2 := ih (by simpa [producible] using h)
    exact ⟨by simpa [hasBad] using h2.1, by simp [normV, h2.2]⟩
  · intro ba h
    simp [producible] at h
  · intro _
    exact ⟨rfl, rfl⟩
  · intro hd tl ihh iht h
    simp only [producibleList, Bool.and_eq_true] at h
    have hh := ihh h.1
    have ht := iht h.2
    exact ⟨by simp [hasBadList, hh.1, ht.1], by simp [normL, hh.2, ht.2]⟩
  · intro _
    exact ⟨rfl, rfl⟩
  · intro k v tl ihv iht h
    simp only [produciblePairs, Bool.and_eq_true] at h
    have hv := ihv h.1.2
    have ht := iht h.2
    exact ⟨by simp [hasBadPairs, hv.1, ht.1], by simp [normP, hv.2, ht.2]⟩

theorem skipWs_writerHead {b : Bytes} (h : writerHead b) (r : Bytes) :
    skipWs (b ++ r) = b ++ r := by
  obtain ⟨h0, t0, rfl, _, _, _⟩ := writerHead_facts h
  rw [List.cons_append]
  exact skipWs_cons_nonws _ (by assumption)

/-- Claim-level roundtrip for the compact writer: a writable tree serializes
successfully, and parsing the output (at any sufficient depth bound) returns its
re-parse normal form, consuming the whole buffer. -/
theorem json_write_parse (t : MpvNode) (h : hasBad t = false) :
    ∃ b, json_write t = .ok b ∧
      ∀ dep, treeDepth t ≤ dep → json_parse dep b = .ok (normV t, []) := by
  obtain ⟨b, hw, hh, hp⟩ := roundtrip_all.1 t h
  refine ⟨b, hw, ?_⟩
  intro dep hdep
  have hb : b ++ [] = b := List.append_nil b
  rw [json_parse, show skipWs b = b from by
    have := skipWs_writerHead hh []
    rwa [hb] at this]
  have := hp dep [] (3 * b.length + 3) hdep rfl (by simp)
  rwa [hb] at this

/-- Claim-level roundtrip for the pretty writer. -/
theorem json_write_pretty_parse (t : MpvNode) (h : hasBad t = false) :
    ∃ b, json_write_pretty t = .ok b ∧
      ∀ dep, treeDepth t ≤ dep → json_parse dep b = .ok (normV t, []) := by
  obtain ⟨b, hw, hh, hp⟩ := roundtrip_pretty_all.1 t h 0
  refine ⟨b, hw, ?_⟩
  intro dep hdep
  have hb : b ++ [] = b := List.append_nil b
  rw [json_parse, show skipWs b = b from by
    have := skipWs_writerHead hh []
    rwa [hb] at this]
  have := hp dep [] (3 * b.length + 3) hdep rfl (by simp)
  rwa [hb] at this

/-! ## Inversion facts about the number scanner -/

theorem parseNumber_shape {l : Bytes} {res : MpvNode × Bytes} (h : parseNumber l = .ok res) :
    (∃ i, res.1 = .int64 i) ∨ (∃ dd, res.1 = .double dd) := by
  unfold parseNumber at h
  dsimp only at h
  repeat' split at h
  all_goals first
    | exact Except.noConfusion h
    | (injection h with h1
       subst h1
       simp)

theorem parseNumber_producible {l : Bytes} {res : MpvNode × Bytes}
    (h : parseNumber l = .ok res) : producible res.1 = true := by
  unfold parseNumber at h
  dsimp only at h
  repeat' split at h
  all_goals first
    | exact Except.noConfusion h
    | (injection h with h1
       subst h1
       simp only [producible, decide_eq_true_eq]
       try assumption)

theorem parseNumber_noByteArray {l : Bytes} {res : MpvNode × Bytes}
    (h : parseNumber l = .ok res) : noByteArray res.1 = true := by
  rcases parseNumber_shape h with ⟨i, hi⟩ | ⟨dd, hdd⟩
  · simp [hi, noByteArray]
  · simp [hdd, noByteArray]

/-! ## Claim C8: the parser never produces a `ByteArray` node -/

theorem parse_noByteArray : ∀ f : Nat,
    (∀ d l t r, parseValue f d l = .ok (t, r) → noByteArray t = true) ∧
    (∀ d l xs r, parseArrItems f d l = .ok (xs, r) → noByteArrayList xs = true) ∧
    (∀ d v l xs r, parseArrTail f d v l = .ok (xs, r) → noByteArray v = true →
      noByteArrayList xs = true) ∧
    (∀ d l ps r, parseMapItems f d l = .ok (ps, r) → noByteArrayPairs ps = true) ∧
    (∀ d k v l ps r, parseMapTail f d k v l = .ok (ps, r) → noByteArray v = true →
      noByteArrayPairs ps = true) := by
  intro f
  induction f with
  | zero =>
    refine ⟨?_, ?_, ?_, ?_, ?_⟩ <;> intros <;>
      first
        | exact Except.noConfusion (by assumption)
        | (rename_i h _; exact Except.noConfusion h)
  | succ f ih =>
    obtain ⟨ihV, ihA, ihT, ihM, ihN⟩ := ih
    refine ⟨?_, ?_, ?_, ?_, ?_⟩
    · intro d l t r h
      cases l with
      | nil => exact Except.noConfusion h
      | cons c rest =>
        simp only [parseValue] at h
        repeat' split at h
        all_goals first
          | exact Except.noConfusion h
          | exact parseNumber_noByteArray h
          | (injection h with h1
             injection h1 with h2 h3
             subst h2
             first
               | rfl
               | (simp only [noByteArray]
                  solve_by_elim))
    · intro d l xs r h
      simp only [parseArrItems] at h
      split at h
      · exact Except.noConfusion h
      · rename_i v r2 heq
        exact ihT d v r2 xs r h (ihV d l v r2 heq)
    · intro d v l xs r h hv
      simp only [parseArrTail] at h
      repeat' split at h
      all_goals first
        | exact Except.noConfusion h
        | (injection h with h1
           injection h1 with h2 h3
           subst h2
           simp only [noByteArrayList, Bool.and_eq_true]
           refine ⟨hv, ?_⟩
           first
             | rfl
             | solve_by_elim)
    · intro d l ps r h
      simp only [parseMapItems] at h
      repeat' split at h
      all_goals first
        | exact Except.noConfusion h
        | solve_by_elim
    · intro d k v l ps r h hv
      simp only [parseMapTail] at h
      repeat' split at h
      all_goals first
        | exact Except.noConfusion h
        | (injection h with h1
           injection h1 with h2 h3
           subst h2
           simp only [noByteArrayPairs, Bool.and_eq_true]
           refine ⟨hv, ?_⟩
           first
             | rfl
             | solve_by_elim)
/-! ## Cursor placement (claim C7) -/


/-- The rest-of-input returned by a parsing call: past the consumed text on
success, at the failure point on error (the model of the `char **src` cursor of
`json_parse`). -/
def restOf : Except (JErr × Bytes) (α × Bytes) → Bytes
  | .ok (_, r) => r
  | .error (_, p) => p

theorem restOf_ok (a : α) (r : Bytes) : restOf (.ok (a, r)) = r := rfl

theorem restOf_error {α : Type} (e : JErr × Bytes) :
    restOf (α := α) (.error e) = e.2 := by
  rcases e with ⟨k, p⟩
  rfl

theorem skipWs_suffix (l : Bytes) : skipWs l <:+ l := by
  induction l with
  | nil => exact List.suffix_rfl
  | cons b r ih =>
    cases hsw : isWsByte b
    · rw [skipWs_cons_nonws r hsw]
    · rw [skipWs_cons_ws r hsw]
      exact ih.trans (List.suffix_cons b r)

theorem scanDigits_suffix (l : Bytes) : (scanDigits l).2 <:+ l := by
  induction l with
  | nil => exact List.suffix_rfl
  | cons b r ih =>
    cases hd : isDigitByte b
    · simp only [scanDigits, hd, Bool.false_eq_true, if_false]
      exact List.suffix_rfl
    · simp only [scanDigits, hd, if_true]
      exact ih.trans (List.suffix_cons b r)

theorem restOf_strCons (x : Bytes) (X : Except (JErr × Bytes) (Bytes × Bytes)) :
    restOf (strCons x X) = restOf X := by
  rcases X with e | ⟨s, r⟩
  · rfl
  · rfl

theorem parseHex4_some {l : Bytes} {cp : Nat} {r : Bytes} (h : parseHex4 l = some (cp, r)) :
    r <:+ l := by
  unfold parseHex4 at h
  repeat' split at h
  all_goals first
    | exact Option.noConfusion h
    | (injection h with h1
       injection h1 with h2 h3
       subst h3
       exact ⟨[_, _, _, _], rfl⟩)

theorem splitSign_snd_suffix (l : Bytes) : (splitSign l).2 <:+ l := by
  unfold splitSign
  split
  · exact List.tail_suffix l
  · exact List.suffix_rfl

theorem expSign_snd_suffix (l : Bytes) : (expSign l).2 <:+ l := by
  unfold expSign
  split
  · exact List.tail_suffix l
  · split
    · exact List.tail_suffix l
    · exact List.suffix_rfl

theorem parseFrac_suffix (l : Bytes) : restOf (parseFrac l) <:+ l := by
  unfold parseFrac
  split
  · split
    · rw [restOf_error]
      exact List.tail_suffix l
    · rename_i ds rest hne heq
      rw [restOf_ok]
      have : rest = (scanDigits l.tail).2 := by rw [heq]
      rw [this]
      exact (scanDigits_suffix _).trans (List.tail_suffix l)
  · exact List.suffix_rfl

theorem parseExp_suffix (l : Bytes) : restOf (parseExp l) <:+ l := by
  unfold parseExp
  dsimp only
  split
  · split
    · rw [restOf_error]
      exact (expSign_snd_suffix l.tail).trans (List.tail_suffix l)
    · rename_i ds rest hne heq
      rw [restOf_ok]
      have : rest = (scanDigits (expSign l.tail).2).2 := by rw [heq]
      rw [this]
      exact ((scanDigits_suffix _).trans (expSign_snd_suffix l.tail)).trans (List.tail_suffix l)
  · exact List.suffix_rfl

theorem parseNumber_suffix (l : Bytes) : restOf (parseNumber l) <:+ l := by
  unfold parseNumber
  dsimp only
  split
  · exact List.suffix_rfl
  · rename_i ds l2 hne heq
    have hl2 : l2 <:+ l := by
      have : l2 = (scanDigits (splitSign l).2).2 := by rw [heq]
      rw [this]
      exact (scanDigits_suffix _).trans (splitSign_snd_suffix l)
    split
    · rename_i e heqF
      have := parseFrac_suffix l2
      rw [heqF, restOf_error] at this
      rw [restOf_error]
      exact this.trans hl2
    · rename_i fo l3 heqF
      have hl3 : l3 <:+ l2 := by
        have := parseFrac_suffix l2
        rwa [heqF, restOf_ok] at this
      split
      · rename_i e heqE
        have := parseExp_suffix l3
        rw [heqE, restOf_error] at this
        rw [restOf_error]
        exact (this.trans hl3).trans hl2
      · rename_i eo l4 heqE
        have hl4 : l4 <:+ l3 := by
          have := parseExp_suffix l3
          rwa [heqE, restOf_ok] at this
        have h4 : l4 <:+ l := (hl4.trans hl3).trans hl2
        repeat' split
        all_goals exact h4

set_option maxHeartbeats 1000000 in
theorem parseStrBodyF_suffix : ∀ (f : Nat) (l : Bytes), restOf (parseStrBodyF f l) <:+ l := by
  intro f
  induction f with
  | zero =>
    intro l
    exact List.suffix_rfl
  | succ f ih =>
    intro l
    cases l with
    | nil => exact List.suffix_rfl
    | cons b r =>
      simp only [parseStrBodyF]
      split
      · exact List.suffix_cons b r
      · split
        swap
        · rw [restOf_strCons]
          exact (ih r).trans (List.suffix_cons b r)
        split
        · exact List.nil_suffix
        · rename_i e r2
          have hr2 : r2 <:+ b :: e :: r2 := ⟨[b, e], rfl⟩
          have hrsub : e :: r2 <:+ b :: e :: r2 := ⟨[b], rfl⟩
          split
          · split
            · exact hrsub
            · rename_i cp r3 heqH
              have hr3 : r3 <:+ b :: e :: r2 := (parseHex4_some heqH).trans hr2
              split
              · split
                · rename_i r4
                  split
                  · exact hr3
                  · rename_i lo r5 heqH2
                    have hr5 : r5 <:+ b :: e :: r2 :=
                      ((parseHex4_some heqH2).trans ⟨[92, 117], rfl⟩).trans hr3
                    split
                    · rw [restOf_strCons]
                      exact (ih r5).trans hr5
                    · exact hr3
                · exact hr3
              · split
                · exact hrsub
                · rw [restOf_strCons]
                  exact (ih r3).trans hr3
          · split
            · rw [restOf_strCons]
              exact (ih _).trans hr2
            · exact hrsub

theorem parseStr_suffix (l : Bytes) : restOf (parseStr l) <:+ l :=
  parseStrBodyF_suffix _ l

set_option maxHeartbeats 1600000 in
theorem parse_suffix : ∀ f : Nat,
    (∀ d l, restOf (parseValue f d l) <:+ l) ∧
    (∀ d l, restOf (parseArrItems f d l) <:+ l) ∧
    (∀ d v l, restOf (parseArrTail f d v l) <:+ l) ∧
    (∀ d l, restOf (parseMapItems f d l) <:+ l) ∧
    (∀ d k v l, restOf (parseMapTail f d k v l) <:+ l) := by
  intro f
  induction f with
  | zero =>
    exact ⟨fun d l => List.suffix_rfl, fun d l => List.suffix_rfl, fun d v l => List.suffix_rfl,
      fun d l => List.suffix_rfl, fun d k v l => List.suffix_rfl⟩
  | succ f ih =>
    obtain ⟨ihV, ihA, ihT, ihM, ihU⟩ := ih
    refine ⟨?_, ?_, ?_, ?_, ?_⟩
    · intro d l
      cases l with
      | nil => exact List.suffix_rfl
      | cons c r =>
        have hcr : r <:+ c :: r := List.suffix_cons c r
        simp only [parseValue]
        split
        · split
          · exact ⟨[c, 117, 108, 108], rfl⟩
          · exact List.suffix_rfl
        · split
          · split
            · exact ⟨[c, 114, 117, 101], rfl⟩
            · exact List.suffix_rfl
          · split
            · split
              · exact ⟨[c, 97, 108, 115, 101], rfl⟩
              · exact List.suffix_rfl
            · split
              · split
                · rename_i e heq
                  rw [restOf_error]
                  have := parseStr_suffix r
                  rw [heq, restOf_error] at this
                  exact this.trans hcr
                · rename_i sv rest heq
                  rw [restOf_ok]
                  have := parseStr_suffix r
                  rw [heq, restOf_ok] at this
                  exact this.trans hcr
              · split
                · split
                  · exact List.suffix_rfl
                  · split
                    · rename_i r2 heq
                      rw [restOf_ok]
                      have h93 : (93 : Nat) :: r2 <:+ r := by
                        rw [← heq]
                        exact skipWs_suffix r
                      exact ((List.suffix_cons 93 r2).trans h93).trans hcr
                    · rename_i r1 heq
                      have hr1 : skipWs r <:+ c :: r := (skipWs_suffix r).trans hcr
                      split
                      · rename_i e heq2
                        rw [restOf_error]
                        have := ihA (d - 1) (skipWs r)
                        rw [heq2, restOf_error] at this
                        exact this.trans hr1
                      · rename_i xs rest heq2
                        rw [restOf_ok]
                        have := ihA (d - 1) (skipWs r)
                        rw [heq2, restOf_ok] at this
                        exact this.trans hr1
                · split
                  · split
                    · exact List.suffix_rfl
                    · split
                      · rename_i r2 heq
                        rw [restOf_ok]
                        have h125 : (125 : Nat) :: r2 <:+ r := by
                          rw [← heq]
                          exact skipWs_suffix r
                        exact ((List.suffix_cons 125 r2).trans h125).trans hcr
                      · rename_i r1 heq
                        have hr1 : skipWs r <:+ c :: r := (skipWs_suffix r).trans hcr
                        split
                        · rename_i e heq2
                          rw [restOf_error]
                          have := ihM (d - 1) (skipWs r)
                          rw [heq2, restOf_error] at this
                          exact this.trans hr1
                        · rename_i ps rest heq2
                          rw [restOf_ok]
                          have := ihM (d - 1) (skipWs r)
                          rw [heq2, restOf_ok] at this
                          exact this.trans hr1
                  · split
                    · exact parseNumber_suffix (c :: r)
                    · exact List.suffix_rfl
    · intro d l
      simp only [parseArrItems]
      split
      · rename_i e heq
        rw [restOf_error]
        have := ihV d l
        rw [heq, restOf_error] at this
        exact this
      · rename_i v r heq
        have hr : r <:+ l := by
          have := ihV d l
          rwa [heq, restOf_ok] at this
        exact (ihT d v r).trans hr
    · intro d v l
      simp only [parseArrTail]
      split
      · rename_i r2 heq
        have hr2 : skipWs r2 <:+ l := by
          have h44 : (44 : Nat) :: r2 <:+ l := by
            rw [← heq]
            exact skipWs_suffix l
          exact (skipWs_suffix r2).trans ((List.suffix_cons 44 r2).trans h44)
        split
        · rename_i e heq2
          rw [restOf_error]
          have := ihA d (skipWs r2)
          rw [heq2, restOf_error] at this
          exact this.trans hr2
        · rename_i xs rest heq2
          rw [restOf_ok]
          have := ihA d (skipWs r2)
          rw [heq2, restOf_ok] at this
          exact this.trans hr2
      · rename_i r2 heq
        rw [restOf_ok]
        have h93 : (93 : Nat) :: r2 <:+ l := by
          rw [← heq]
          exact skipWs_suffix l
        exact (List.suffix_cons 93 r2).trans h93
      · rename_i r' heq
        rw [restOf_error]
        exact skipWs_suffix l
    · intro d l
      simp only [parseMapItems]
      split
      · rename_i r
        have h34 : r <:+ 34 :: r := List.suffix_cons 34 r
        split
        · rename_i e heq
          rw [restOf_error]
          have := parseStr_suffix r
          rw [heq, restOf_error] at this
          exact this.trans h34
        · rename_i k r1 heq
          have hr1 : r1 <:+ (34 : Nat) :: r := by
            have := parseStr_suffix r
            rw [heq, restOf_ok] at this
            exact this.trans h34
          split
          · rename_i r2 heq2
            have hr2 : skipWs r2 <:+ (34 : Nat) :: r := by
              have h58 : (58 : Nat) :: r2 <:+ r1 := by
                rw [← heq2]
                exact skipWs_suffix r1
              exact ((skipWs_suffix r2).trans ((List.suffix_cons 58 r2).trans h58)).trans hr1
            split
            · rename_i e heq3
              rw [restOf_error]
              have := ihV d (skipWs r2)
              rw [heq3, restOf_error] at this
              exact this.trans hr2
            · rename_i v r3 heq3
              have hr3 : r3 <:+ (34 : Nat) :: r := by
                have := ihV d (skipWs r2)
                rw [heq3, restOf_ok] at this
                exact this.trans hr2
              exact (ihU d k v r3).trans hr3
          · rename_i r' heq2
            rw [restOf_error]
            exact (skipWs_suffix r1).trans hr1
      · exact List.suffix_rfl
    · intro d k v l
      simp only [parseMapTail]
      split
      · rename_i r4 heq
        have hr4 : skipWs r4 <:+ l := by
          have h44 : (44 : Nat) :: r4 <:+ l := by
            rw [← heq]
            exact skipWs_suffix l
          exact (skipWs_suffix r4).trans ((List.suffix_cons 44 r4).trans h44)
        split
        · rename_i e heq2
          rw [restOf_error]
          have := ihM d (skipWs r4)
          rw [heq2, restOf_error] at this
          exact this.trans hr4
        · rename_i ps rest heq2
          rw [restOf_ok]
          have := ihM d (skipWs r4)
          rw [heq2, restOf_ok] at this
          exact this.trans hr4
      · rename_i r4 heq
        rw [restOf_ok]
        have h125 : (125 : Nat) :: r4 <:+ l := by
          rw [← heq]
          exact skipWs_suffix l
        exact (List.suffix_cons 125 r4).trans h125
      · rename_i r' heq
        rw [restOf_error]
        exact skipWs_suffix l

theorem pmi_val_err (f d : Nat) {r k r1 r2 : Bytes} {e : JErr × Bytes}
    (hk : parseStr r = .ok (k, r1)) (hc : skipWs r1 = 58 :: r2)
    (hv : parseValue f d (skipWs r2) = .error e) :
    parseMapItems (f + 1) d (34 :: r) = .error e := by
  rw [pmi_quote, hk]
  show ((match skipWs r1 with
        | 58 :: r2 =>
          match parseValue f d (skipWs r2) with
          | .error e => .error e
          | .ok (v, r3) => parseMapTail f d k v r3
        | r' => .error (.syntaxError, r')) : Except (JErr × Bytes) (PairList × Bytes)) = _
  rw [hc]
  show ((match parseValue f d (skipWs r2) with
        | .error e => .error e
        | .ok (v, r3) => parseMapTail f d k v r3) : Except (JErr × Bytes) (PairList × Bytes)) = _
  rw [hv]

set_option maxHeartbeats 1600000 in
theorem parse_depth : ∀ f : Nat,
    (∀ d l t r, parseValue f d l = .ok (t, r) → ∀ d2,
      (treeDepth t ≤ d2 → parseValue f d2 l = .ok (t, r)) ∧
      (d2 < treeDepth t → ∃ p, parseValue f d2 l = .error (.depthExceeded, p))) ∧
    (∀ d l xs r, parseArrItems f d l = .ok (xs, r) → ∀ d2,
      (depthList xs ≤ d2 → parseArrItems f d2 l = .ok (xs, r)) ∧
      (d2 < depthList xs → ∃ p, parseArrItems f d2 l = .error (.depthExceeded, p))) ∧
    (∀ d v l ys r, parseArrTail f d v l = .ok (ys, r) →
      ∃ zs, ys = .cons v zs ∧ ∀ d2,
        (depthList zs ≤ d2 → parseArrTail f d2 v l = .ok (ys, r)) ∧
        (d2 < depthList zs → ∃ p, parseArrTail f d2 v l = .error (.depthExceeded, p))) ∧
    (∀ d l ps r, parseMapItems f d l = .ok (ps, r) → ∀ d2,
      (depthPairs ps ≤ d2 → parseMapItems f d2 l = .ok (ps, r)) ∧
      (d2 < depthPairs ps → ∃ p, parseMapItems f d2 l = .error (.depthExceeded, p))) ∧
    (∀ d k v l ps r, parseMapTail f d k v l = .ok (ps, r) →
      ∃ qs, ps = .cons k v qs ∧ ∀ d2,
        (depthPairs qs ≤ d2 → parseMapTail f d2 k v l = .ok (ps, r)) ∧
        (d2 < depthPairs qs → ∃ p, parseMapTail f d2 k v l = .error (.depthExceeded, p))) := by
  intro f
  induction f with
  | zero =>
    exact ⟨fun d l t r h => Except.noConfusion h, fun d l xs r h => Except.noConfusion h,
      fun d v l ys r h => Except.noConfusion h, fun d l ps r h => Except.noConfusion h,
      fun d k v l ps r h => Except.noConfusion h⟩
  | succ f ih =>
    obtain ⟨ihV, ihA, ihT, ihM, ihU⟩ := ih
    refine ⟨?_, ?_, ?_, ?_, ?_⟩
    · intro d l t r h
      cases l with
      | nil => exact Except.noConfusion h
      | cons c r0 =>
        simp only [parseValue] at h
        split at h
        · rename_i hc
          subst hc
          split at h
          · rename_i rr
            injection h with h1
            injection h1 with h2 h3
            subst h2
            subst h3
            intro d2
            refine ⟨fun _ => pv_null f d2 rr, fun hlt => absurd hlt (by simp [treeDepth])⟩
          · exact Except.noConfusion h
        · split at h
          · rename_i hc
            subst hc
            split at h
            · rename_i rr
              injection h with h1
              injection h1 with h2 h3
              subst h2
              subst h3
              intro d2
              refine ⟨fun _ => pv_true f d2 rr, fun hlt => absurd hlt (by simp [treeDepth])⟩
            · exact Except.noConfusion h
          · split at h
            · rename_i hc
              subst hc
              split at h
              · rename_i rr
                injection h with h1
                injection h1 with h2 h3
                subst h2
                subst h3
                intro d2
                refine ⟨fun _ => pv_false f d2 rr, fun hlt => absurd hlt (by simp [treeDepth])⟩
              · exact Except.noConfusion h
            · split at h
              · rename_i hc
                subst hc
                split at h
                · exact Except.noConfusion h
                · rename_i sv rest heq
                  injection h with h1
                  injection h1 with h2 h3
                  subst h2
                  subst h3
                  intro d2
                  refine ⟨fun _ => pv_str_ok f d2 heq, fun hlt => absurd hlt (by simp [treeDepth])⟩
              · split at h
                · rename_i hc
                  subst hc
                  split at h
                  · exact Except.noConfusion h
                  · rename_i hd
                    split at h
                    · rename_i r2 heq
                      injection h with h1
                      injection h1 with h2 h3
                      subst h2
                      subst h3
                      intro d2
                      constructor
                      · intro hle
                        have hd2 : d2 ≠ 0 := by
                          simp [treeDepth, depthList] at hle
                          omega
                        exact pv_arr_empty f d2 hd2 heq
                      · intro hlt
                        have hd2 : d2 = 0 := by
                          simp [treeDepth, depthList] at hlt
                          omega
                        subst hd2
                        exact ⟨91 :: r0, by rw [pv_arr_head, if_pos rfl]⟩
                    · rename_i r1 heq
                      split at h
                      · exact Except.noConfusion h
                      · rename_i xs rest heq2
                        injection h with h1
                        injection h1 with h2 h3
                        subst h2
                        subst h3
                        intro d2
                        have hA := ihA (d - 1) (skipWs r0) xs rest heq2 (d2 - 1)
                        constructor
                        · intro hle
                          have hd2 : d2 ≠ 0 := by
                            simp [treeDepth] at hle
                            omega
                          have hxs : depthList xs ≤ d2 - 1 := by
                            simp [treeDepth] at hle
                            omega
                          rw [pv_arr_head, if_neg hd2]
                          split
                          · rename_i r2 h93
                            exact absurd h93 (heq r2)
                          · rw [hA.1 hxs]
                        · intro hlt
                          by_cases hd2 : d2 = 0
                          · subst hd2
                            exact ⟨91 :: r0, by rw [pv_arr_head, if_pos rfl]⟩
                          · have hxs : d2 - 1 < depthList xs := by
                              simp [treeDepth] at hlt
                              omega
                            obtain ⟨p, hp⟩ := hA.2 hxs
                            refine ⟨p, ?_⟩
                            rw [pv_arr_head, if_neg hd2]
                            split
                            · rename_i r2 h93
                              exact absurd h93 (heq r2)
                            · rw [hp]
                · split at h
                  · rename_i hc
                    subst hc
                    split at h
                    · exact Except.noConfusion h
                    · rename_i hd
                      split at h
                      · rename_i r2 heq
                        injection h with h1
                        injection h1 with h2 h3
                        subst h2
                        subst h3
                        intro d2
                        constructor
                        · intro hle
                          have hd2 : d2 ≠ 0 := by
                            simp [treeDepth, depthPairs] at hle
                            omega
                          exact pv_map_empty f d2 hd2 heq
                        · intro hlt
                          have hd2 : d2 = 0 := by
                            simp [treeDepth, depthPairs] at hlt
                            omega
                          subst hd2
                          exact ⟨123 :: r0, by rw [pv_map_head, if_pos rfl]⟩
                      · rename_i r1 heq
                        split at h
                        · exact Except.noConfusion h
                        · rename_i ps rest heq2
                          injection h with h1
                          injection h1 with h2 h3
                          subst h2
                          subst h3
                          intro d2
                          have hM := ihM (d - 1) (skipWs r0) ps rest heq2 (d2 - 1)
                          constructor
                          · intro hle
                            have hd2 : d2 ≠ 0 := by
                              simp [treeDepth] at hle
                              omega
                            have hps : depthPairs ps ≤ d2 - 1 := by
                              simp [treeDepth] at hle
                              omega
                            rw [pv_map_head, if_neg hd2]
                            split
                            · rename_i r2 h125
                              exact absurd h125 (heq r2)
                            · rw [hM.1 hps]
                          · intro hlt
                            by_cases hd2 : d2 = 0
                            · subst hd2
                              exact ⟨123 :: r0, by rw [pv_map_head, if_pos rfl]⟩
                            · have hps : d2 - 1 < depthPairs ps := by
                                simp [treeDepth] at hlt
                                omega
                              obtain ⟨p, hp⟩ := hM.2 hps
                              refine ⟨p, ?_⟩
                              rw [pv_map_head, if_neg hd2]
                              split
                              · rename_i r2 h125
                                exact absurd h125 (heq r2)
                              · rw [hp]
                  · split at h
                    · rename_i hnum
                      have hdep : treeDepth t = 0 := by
                        rcases parseNumber_shape h with ⟨i, hi⟩ | ⟨dd, hdd⟩
                        · have hi2 : t = .int64 i := hi
                          rw [hi2]
                          simp [treeDepth]
                        · have hd2 : t = .double dd := hdd
                          rw [hd2]
                          simp [treeDepth]
                      intro d2
                      constructor
                      · intro _
                        rcases hnum with hc | hc
                        · subst hc
                          rw [pv_minus]
                          exact h
                        · rw [pv_num f d2 r0 hc]
                          exact h
                      · intro hlt
                        rw [hdep] at hlt
                        exact absurd hlt (by omega)
                    · exact Except.noConfusion h
    · intro d l xs r h
      rw [pai_head] at h
      split at h
      · exact Except.noConfusion h
      · rename_i v r1 heq
        obtain ⟨zs, hsh, hT⟩ := ihT d v r1 xs r h
        subst hsh
        intro d2
        have hV := ihV d l v r1 heq d2
        constructor
        · intro hle
          simp only [depthList] at hle
          have h1 : treeDepth v ≤ d2 := le_trans (le_max_left _ _) hle
          have h2 : depthList zs ≤ d2 := le_trans (le_max_right _ _) hle
          rw [pai_ok f d2 (hV.1 h1)]
          exact (hT d2).1 h2
        · intro hlt
          by_cases hv : d2 < treeDepth v
          · obtain ⟨p, hp⟩ := hV.2 hv
            refine ⟨p, ?_⟩
            rw [pai_head, hp]
          · have hvle : treeDepth v ≤ d2 := Nat.not_lt.mp hv
            have hzs : d2 < depthList zs := by
              simp only [depthList] at hlt
              rcases lt_max_iff.mp hlt with h1 | h1
              · exact absurd h1 hv
              · exact h1
            obtain ⟨p, hp⟩ := (hT d2).2 hzs
            refine ⟨p, ?_⟩
            rw [pai_ok f d2 (hV.1 hvle)]
            exact hp
    · intro d v l ys r h
      rw [pat_head] at h
      split at h
      · rename_i r2 heq
        split at h
        · exact Except.noConfusion h
        · rename_i xs rest heq2
          injection h with h1
          injection h1 with h2 h3
          subst h2
          subst h3
          refine ⟨xs, rfl, fun d2 => ?_⟩
          have hA := ihA d (skipWs r2) xs rest heq2 d2
          constructor
          · intro hle
            rw [pat_comma f d2 v heq, hA.1 hle]
          · intro hlt
            obtain ⟨p, hp⟩ := hA.2 hlt
            exact ⟨p, by rw [pat_comma f d2 v heq, hp]⟩
      · rename_i r2 heq
        injection h with h1
        injection h1 with h2 h3
        subst h2
        subst h3
        refine ⟨.nil, rfl, fun d2 => ?_⟩
        refine ⟨fun _ => pat_close f d2 v heq, fun hlt => absurd hlt (by simp [depthList])⟩
      · exact Except.noConfusion h
    · intro d l ps r h
      simp only [parseMapItems] at h
      split at h
      · rename_i rr
        split at h
        · exact Except.noConfusion h
        · rename_i k r1 heqK
          split at h
          · rename_i r2 heqC
            split at h
            · exact Except.noConfusion h
            · rename_i v r3 heqV
              obtain ⟨qs, hsh, hU⟩ := ihU d k v r3 ps r h
              subst hsh
              intro d2
              have hV := ihV d (skipWs r2) v r3 heqV d2
              constructor
              · intro hle
                simp only [depthPairs] at hle
                have h1 : treeDepth v ≤ d2 := le_trans (le_max_left _ _) hle
                have h2 : depthPairs qs ≤ d2 := le_trans (le_max_right _ _) hle
                rw [pmi_ok f d2 heqK heqC (hV.1 h1)]
                exact (hU d2).1 h2
              · intro hlt
                by_cases hv : d2 < treeDepth v
                · obtain ⟨p, hp⟩ := hV.2 hv
                  exact ⟨p, pmi_val_err f d2 heqK heqC hp⟩
                · have hvle : treeDepth v ≤ d2 := Nat.not_lt.mp hv
                  have hqs : d2 < depthPairs qs := by
                    simp only [depthPairs] at hlt
                    rcases lt_max_iff.mp hlt with h1 | h1
                    · exact absurd h1 hv
                    · exact h1
                  obtain ⟨p, hp⟩ := (hU d2).2 hqs
                  refine ⟨p, ?_⟩
                  rw [pmi_ok f d2 heqK heqC (hV.1 hvle)]
                  exact hp
          · exact Except.noConfusion h
      · exact Except.noConfusion h
    · intro d k v l ps r h
      rw [pmt_head] at h
      split at h
      · rename_i r4 heq
        split at h
        · exact Except.noConfusion h
        · rename_i qs rest heq2
          injection h with h1
          injection h1 with h2 h3
          subst h2
          subst h3
          refine ⟨qs, rfl, fun d2 => ?_⟩
          have hM := ihM d (skipWs r4) qs rest heq2 d2
          constructor
          · intro hle
            rw [pmt_comma f d2 k v heq, hM.1 hle]
          · intro hlt
            obtain ⟨p, hp⟩ := hM.2 hlt
            exact ⟨p, by rw [pmt_comma f d2 k v heq, hp]⟩
      · rename_i r4 heq
        injection h with h1
        injection h1 with h2 h3
        subst h2
        subst h3
        refine ⟨.nil, rfl, fun d2 => ?_⟩
        refine ⟨fun _ => pmt_close f d2 k v heq, fun hlt => absurd hlt (by simp [depthPairs])⟩
      · exact Except.noConfusion h

theorem combineW_error_left (e : JErr) (b : Except JErr Bytes) (f : Bytes → Bytes → Bytes) :
    combineW (.error e) b f = .error e := by
  cases b
  · rfl
  · rfl

theorem combineW_error_mono {a b : Except JErr Bytes} {e : JErr} {f : Bytes → Bytes → Bytes}
    (g : Bytes → Bytes → Bytes) (h : combineW a b f = .error e) : combineW a b g = .error e := by
  cases a
  · cases b
    · exact h
    · exact h
  · cases b
    · exact h
    · exact absurd h (by simp [combineW])

theorem writers_fail :
    (∀ t, hasBad t = true → writeNode t = .error .unsupportedValue ∧
      ∀ ind, writePrettyNode ind t = .error .unsupportedValue) ∧
    (∀ xs, hasBadList xs = true → writeArrTail xs = .error .unsupportedValue ∧
      ∀ ind, writePrettyArrTail ind xs = .error .unsupportedValue) ∧
    (∀ ps, hasBadPairs ps = true → writeMapTail ps = .error .unsupportedValue ∧
      ∀ ind, writePrettyMapTail ind ps = .error .unsupportedValue) := by
  refine mpv_mutual_ind ?_ ?_ ?_ ?_ ?_ ?_ ?_ ?_ ?_ ?_ ?_ ?_
  · intro h
    exact absurd h (by simp [hasBad])
  · intro s h
    exact absurd h (by simp [hasBad])
  · intro b h
    exact absurd h (by simp [hasBad])
  · intro i h
    exact absurd h (by simp [hasBad])
  · intro d h
    cases d with
    | finite dd => exact absurd h (by simp [hasBad])
    | nan => exact ⟨rfl, fun ind => rfl⟩
    | posInf => exact ⟨rfl, fun ind => rfl⟩
    | negInf => exact ⟨rfl, fun ind => rfl⟩
  · intro xs ihQ h
    have hxs : hasBadList xs = true := by simpa [hasBad] using h
    obtain ⟨hQ1, hQ2⟩ := ihQ hxs
    cases xs with
    | nil => simp [hasBadList] at hxs
    | cons x tl =>
      constructor
      · rw [writeNode]
        rw [writeArrTail] at hQ1
        exact combineW_error_mono _ hQ1
      · intro ind
        have hp := hQ2 ind
        rw [writePrettyArrTail] at hp
        rw [writePrettyNode]
        exact combineW_error_mono _ hp
  · intro ps ihR h
    have hps : hasBadPairs ps = true := by simpa [hasBad] using h
    obtain ⟨hR1, hR2⟩ := ihR hps
    cases ps with
    | nil => simp [hasBadPairs] at hps
    | cons k v tl =>
      constructor
      · rw [writeNode]
        rw [writeMapTail] at hR1
        exact combineW_error_mono _ hR1
      · intro ind
        have hp := hR2 ind
        rw [writePrettyMapTail] at hp
        rw [writePrettyNode]
        exact combineW_error_mono _ hp
  · intro ba h
    exact ⟨rfl, fun ind => rfl⟩
  · intro h
    exact absurd h (by simp [hasBadList])
  · intro hd tl ihP ihQ h
    rw [hasBadList] at h
    constructor
    · rw [writeArrTail]
      by_cases hh : hasBad hd = true
      · rw [(ihP hh).1]
        exact combineW_error_left _ _ _
      · have htl : hasBadList tl = true := by
          rcases Bool.or_eq_true_iff.mp h with h1 | h1
          · exact absurd h1 hh
          · exact h1
        obtain ⟨b, hw, _⟩ := roundtrip_all.1 hd (Bool.not_eq_true _ ▸ Bool.eq_false_iff.mpr hh)
        rw [hw, (ihQ htl).1]
        rfl
    · intro ind
      rw [writePrettyArrTail]
      by_cases hh : hasBad hd = true
      · rw [((ihP hh).2) (ind + 1)]
        exact combineW_error_left _ _ _
      · have htl : hasBadList tl = true := by
          rcases Bool.or_eq_true_iff.mp h with h1 | h1
          · exact absurd h1 hh
          · exact h1
        obtain ⟨b, hw, _⟩ := roundtrip_pretty_all.1 hd (Bool.not_eq_true _ ▸ Bool.eq_false_iff.mpr hh) (ind + 1)
        rw [hw, ((ihQ htl).2) ind]
        rfl
  · intro h
    exact absurd h (by simp [hasBadPairs])
  · intro k v tl ihP ihR h
    rw [hasBadPairs] at h
    constructor
    · rw [writeMapTail]
      by_cases hh : hasBad v = true
      · rw [(ihP hh).1]
        exact combineW_error_left _ _ _
      · have htl : hasBadPairs tl = true := by
          rcases Bool.or_eq_true_iff.mp h with h1 | h1
          · exact absurd h1 hh
          · exact h1
        obtain ⟨b, hw, _⟩ := roundtrip_all.1 v (Bool.not_eq_true _ ▸ Bool.eq_false_iff.mpr hh)
        rw [hw, (ihR htl).1]
        rfl
    · intro ind
      rw [writePrettyMapTail]
      by_cases hh : hasBad v = true
      · rw [((ihP hh).2) (ind + 1)]
        exact combineW_error_left _ _ _
      · have htl : hasBadPairs tl = true := by
          rcases Bool.or_eq_true_iff.mp h with h1 | h1
          · exact absurd h1 hh
          · exact h1
        obtain ⟨b, hw, _⟩ := roundtrip_pretty_all.1 v (Bool.not_eq_true _ ▸ Bool.eq_false_iff.mpr hh) (ind + 1)
        rw [hw, ((ihR htl).2) ind]
        rfl

theorem parseHex4_eq {h1 h2 h3 h4 a b c dv : Nat} (r : Bytes) (ha : hexVal h1 = some a)
    (hb : hexVal h2 = some b) (hc : hexVal h3 = some c) (hd : hexVal h4 = some dv) :
    parseHex4 (h1 :: h2 :: h3 :: h4 :: r) = some (((a * 16 + b) * 16 + c) * 16 + dv, r) := by
  simp only [parseHex4, ha, hb, hc, hd]

theorem parseStr_simpleEsc {e dv : Nat} (r : Bytes) (hs : simpleEsc e = some dv)
    (h117 : e ≠ 117) : parseStr (92 :: e :: 34 :: r) = .ok ([dv], r) := by
  unfold parseStr
  rw [show (92 :: e :: 34 :: r).length + 1 = (r.length + 3) + 1 by simp,
    parseStrBodyF_simpleEsc (r.length + 3) (34 :: r) hs h117,
    show r.length + 3 = (r.length + 2) + 1 from rfl, parseStrBodyF_quote]
  rfl

theorem parseStrBodyF_uesc {h1 h2 h3 h4 a b c dv : Nat} (f : Nat) (x : Bytes)
    (ha : hexVal h1 = some a) (hb : hexVal h2 = some b) (hc : hexVal h3 = some c)
    (hd : hexVal h4 = some dv) {cp : Nat} (hcp : cp = ((a * 16 + b) * 16 + c) * 16 + dv)
    (hlo : ¬ (55296 ≤ cp ∧ cp < 56320)) (hhi : ¬ (56320 ≤ cp ∧ cp < 57344)) :
    parseStrBodyF (f + 1) (92 :: 117 :: h1 :: h2 :: h3 :: h4 :: x)
      = strCons (utf8Encode cp) (parseStrBodyF f x) := by
  simp only [parseStrBodyF, if_neg (by omega : (92 : Nat) ≠ 34), if_pos rfl,
    parseHex4_eq x ha hb hc hd, ← hcp, if_neg hlo, if_neg hhi, if_true]

theorem parseStr_uesc {h1 h2 h3 h4 a b c dv : Nat} (r : Bytes)
    (ha : hexVal h1 = some a) (hb : hexVal h2 = some b) (hc : hexVal h3 = some c)
    (hd : hexVal h4 = some dv) {cp : Nat} (hcp : cp = ((a * 16 + b) * 16 + c) * 16 + dv)
    (hlo : ¬ (55296 ≤ cp ∧ cp < 56320)) (hhi : ¬ (56320 ≤ cp ∧ cp < 57344)) :
    parseStr (92 :: 117 :: h1 :: h2 :: h3 :: h4 :: 34 :: r) = .ok (utf8Encode cp, r) := by
  unfold parseStr
  rw [show (92 :: 117 :: h1 :: h2 :: h3 :: h4 :: 34 :: r).length + 1 = (r.length + 7) + 1
      by simp,
    parseStrBodyF_uesc (r.length + 7) (34 :: r) ha hb hc hd hcp hlo hhi,
    show r.length + 7 = (r.length + 6) + 1 from rfl, parseStrBodyF_quote]
  show Except.ok (utf8Encode cp ++ [], r) = _
  rw [List.append_nil]

theorem parseStrBodyF_surr {h1 h2 h3 h4 h5 h6 h7 h8 a1 a2 a3 a4 b1 b2 b3 b4 : Nat}
    (f : Nat) (x : Bytes)
    (ha1 : hexVal h1 = some a1) (ha2 : hexVal h2 = some a2) (ha3 : hexVal h3 = some a3)
    (ha4 : hexVal h4 = some a4) (hb1 : hexVal h5 = some b1) (hb2 : hexVal h6 = some b2)
    (hb3 : hexVal h7 = some b3) (hb4 : hexVal h8 = some b4)
    {hi lo : Nat} (hhi : hi = ((a1 * 16 + a2) * 16 + a3) * 16 + a4)
    (hlo : lo = ((b1 * 16 + b2) * 16 + b3) * 16 + b4)
    (hhir : 55296 ≤ hi ∧ hi < 56320) (hlor : 56320 ≤ lo ∧ lo < 57344) :
    parseStrBodyF (f + 1) (92 :: 117 :: h1 :: h2 :: h3 :: h4 :: 92 :: 117 :: h5 :: h6 :: h7 :: h8 :: x)
      = strCons (utf8Encode (65536 + (hi - 55296) * 1024 + (lo - 56320)))
          (parseStrBodyF f x) := by
  simp only [parseStrBodyF, if_neg (by omega : (92 : Nat) ≠ 34), if_pos rfl,
    parseHex4_eq _ ha1 ha2 ha3 ha4, ← hhi, if_pos hhir,
    parseHex4_eq _ hb1 hb2 hb3 hb4, ← hlo, if_pos hlor, if_true]

theorem parseStr_surr {h1 h2 h3 h4 h5 h6 h7 h8 a1 a2 a3 a4 b1 b2 b3 b4 : Nat} (r : Bytes)
    (ha1 : hexVal h1 = some a1) (ha2 : hexVal h2 = some a2) (ha3 : hexVal h3 = some a3)
    (ha4 : hexVal h4 = some a4) (hb1 : hexVal h5 = some b1) (hb2 : hexVal h6 = some b2)
    (hb3 : hexVal h7 = some b3) (hb4 : hexVal h8 = some b4)
    {hi lo : Nat} (hhi : hi = ((a1 * 16 + a2) * 16 + a3) * 16 + a4)
    (hlo : lo = ((b1 * 16 + b2) * 16 + b3) * 16 + b4)
    (hhir : 55296 ≤ hi ∧ hi < 56320) (hlor : 56320 ≤ lo ∧ lo < 57344) :
    parseStr (92 :: 117 :: h1 :: h2 :: h3 :: h4 :: 92 :: 117 :: h5 :: h6 :: h7 :: h8 :: 34 :: r)
      = .ok (utf8Encode (65536 + (hi - 55296) * 1024 + (lo - 56320)), r) := by
  unfold parseStr
  rw [show (92 :: 117 :: h1 :: h2 :: h3 :: h4 :: 92 :: 117 :: h5 :: h6 :: h7 :: h8 :: 34 :: r).length + 1
      = (r.length + 13) + 1 by simp,
    parseStrBodyF_surr (r.length + 13) (34 :: r) ha1 ha2 ha3 ha4 hb1 hb2 hb3 hb4 hhi hlo
      hhir hlor,
    show r.length + 13 = (r.length + 12) + 1 from rfl, parseStrBodyF_quote]
  show Except.ok (utf8Encode (65536 + (hi - 55296) * 1024 + (lo - 56320)) ++ [], r) = _
  rw [List.append_nil]

theorem parseStrBodyF_badEsc {e : Nat} (f : Nat) (x : Bytes)
    (hs : simpleEsc e = Option.none) (h117 : e ≠ 117) :
    parseStrBodyF (f + 1) (92 :: e :: x) = .error (.syntaxError, e :: x) := by
  simp only [parseStrBodyF, if_neg (by omega : (92 : Nat) ≠ 34), if_pos rfl, if_neg h117, hs]
  rw [if_pos trivial]

theorem parseStr_badEsc {e : Nat} (r : Bytes) (hs : simpleEsc e = Option.none)
    (h117 : e ≠ 117) : parseStr (92 :: e :: r) = .error (.syntaxError, e :: r) := by
  unfold parseStr
  rw [show (92 :: e :: r).length + 1 = (r.length + 2) + 1 by simp]
  exact parseStrBodyF_badEsc (r.length + 2) r hs h117

theorem parseStrBodyF_unterminated :
    ∀ (f : Nat) (s : Bytes), s.length < f →
      s.all (fun b => !(b == 34) && !(b == 92)) = true →
      parseStrBodyF f s = .error (.unterminated, []) := by
  intro f
  induction f with
  | zero =>
    intro s hlen _
    exact absurd hlen (by omega)
  | succ f ih =>
    intro s hlen hall
    cases s with
    | nil => rfl
    | cons b x =>
      simp only [List.all_cons, Bool.and_eq_true, Bool.not_eq_true', beq_eq_false_iff_ne,
        ne_eq] at hall
      rw [parseStrBodyF_raw f x hall.1.1 hall.1.2,
        ih x (by simp at hlen; omega) (by simpa using hall.2)]
      rfl

theorem parseStr_unterminated (s : Bytes)
    (hall : s.all (fun b => !(b == 34) && !(b == 92)) = true) :
    parseStr s = .error (.unterminated, []) :=
  parseStrBodyF_unterminated (s.length + 1) s (by omega) hall

/-- Claim C1: for every value tree the parser can produce (no `ByteArray`, finite
doubles, in-range `Int64`, byte strings), serializing it with the compact writer
succeeds and re-parsing the resulting text (at any sufficient depth bound) yields a
tree structurally equal to the original, consuming the whole buffer; the exact
decimal encoding of doubles loses no precision, so equality is plain structural
equality. -/
theorem claim_C1_roundtrip (t : MpvNode) (h : producible t = true) :
    ∃ b, json_write t = .ok b ∧
      ∀ maxDepth, treeDepth t ≤ maxDepth → json_parse maxDepth b = .ok (t, []) := by
  obtain ⟨hb, hn⟩ := producible_facts.1 t h
  obtain ⟨b, hw, hp⟩ := json_write_parse t hb
  refine ⟨b, hw, fun dep hdep => ?_⟩
  have hres := hp dep hdep
  rwa [hn] at hres

theorem claim_C1_roundtrip_witness :
    producible (.array (.cons (.int64 5) (.cons (.str [104, 105]) .nil))) = true ∧
    ∃ b, json_write (.array (.cons (.int64 5) (.cons (.str [104, 105]) .nil))) = .ok b ∧
      ∀ maxDepth, treeDepth (.array (.cons (.int64 5) (.cons (.str [104, 105]) .nil))) ≤ maxDepth →
        json_parse maxDepth b
          = .ok (.array (.cons (.int64 5) (.cons (.str [104, 105]) .nil)), []) :=
  ⟨by decide, claim_C1_roundtrip _ (by decide)⟩

/-- Claim C2: a document that parses to a tree of nesting depth `treeDepth t`
parses to the same result under any depth bound at least that deep, and fails
deterministically with `DepthExceeded` under any smaller bound. -/
theorem claim_C2_maxdepth {D : Nat} {l : Bytes} {t : MpvNode} {r : Bytes}
    (h : json_parse D l = .ok (t, r)) (maxDepth : Nat) :
    (treeDepth t ≤ maxDepth → json_parse maxDepth l = .ok (t, r)) ∧
    (maxDepth < treeDepth t → ∃ p, json_parse maxDepth l = .error (.depthExceeded, p)) :=
  (parse_depth (3 * l.length + 3)).1 D (skipWs l) t r h maxDepth

theorem claim_C2_maxdepth_witness :
    json_parse 2 [91, 91, 93, 93] = .ok (.array (.cons (.array .nil) .nil), []) ∧
    (∃ p, json_parse 1 [91, 91, 93, 93] = .error (.depthExceeded, p)) :=
  ⟨(claim_C2_maxdepth (D := 2) (l := [91, 91, 93, 93]) rfl 2).1 (by decide),
   (claim_C2_maxdepth (D := 2) (l := [91, 91, 93, 93]) rfl 1).2 (by decide)⟩

/-- Claim C3: a numeric literal with no fractional part and no exponent parses to
`Int64` when it fits the signed 64-bit range and to `Double` when it overflows
(never a parse failure); a literal with an exponent parses to `Double`; and
concretely `42` parses to `Int64 42`, `42.0` and `4.2e1` both parse to finite
doubles of value 42, and `99999999999999999999` parses to a `Double`. -/
theorem claim_C3_numbers :
    (∀ n : Nat, ∀ r : Bytes, numStop r = true →
      parseNumber (natBytes n ++ r)
        = .ok (if (n : Int) < 2 ^ 63 then .int64 (n : Int) else .double (.finite ⟨(n : Int), 0⟩), r)) ∧
    (∀ n : Nat, ∀ r : Bytes, numStop r = true →
      parseNumber (45 :: natBytes n ++ r)
        = .ok (if (n : Int) ≤ 2 ^ 63 then .int64 (-(n : Int)) else .double (.finite ⟨-(n : Int), 0⟩), r)) ∧
    (∀ dd : Decimal, ∀ r : Bytes, numStop r = true →
      parseNumber (decBytes dd ++ r) = .ok (.double (.finite dd), r)) ∧
    json_parse 0 [52, 50] = .ok (.int64 42, []) ∧
    (∃ d1 d2 : Decimal,
      json_parse 0 [52, 50, 46, 48] = .ok (.double (.finite d1), []) ∧
      json_parse 0 [52, 46, 50, 101, 49] = .ok (.double (.finite d2), []) ∧
      d1.val = 42 ∧ d2.val = 42) ∧
    (∃ d3 : Decimal,
      json_parse 0 (natBytes 99999999999999999999) = .ok (.double (.finite d3), []) ∧
      d3.val = 99999999999999999999) := by
  refine ⟨parseNumber_natBytes, parseNumber_neg_natBytes, parseNumber_decBytes, rfl,
    ⟨⟨420, -1⟩, ⟨42, 0⟩, ?_, ?_, ?_, ?_⟩, ⟨⟨99999999999999999999, 0⟩, ?_, ?_⟩⟩
  · rfl
  · rfl
  · show ((420 : Int) : ℚ) * (10 : ℚ) ^ (-1 : Int) = 42
    norm_num
  · show ((42 : Int) : ℚ) * (10 : ℚ) ^ (0 : Int) = 42
    norm_num
  · rfl
  · show ((99999999999999999999 : Int) : ℚ) * (10 : ℚ) ^ (0 : Int) = 99999999999999999999
    norm_num

/-- Claim C4: the writers fail, with `UnsupportedValue`, exactly on trees
containing a `ByteArray` node or a non-finite `Double` node, and succeed on all
other trees. -/
theorem claim_C4_unsupported (t : MpvNode) :
    (hasBad t = true →
      json_write t = .error .unsupportedValue ∧
        json_write_pretty t = .error .unsupportedValue) ∧
    (hasBad t = false →
      (∃ b, json_write t = .ok b) ∧ ∃ b2, json_write_pretty t = .ok b2) := by
  constructor
  · intro h
    obtain ⟨h1, h2⟩ := writers_fail.1 t h
    exact ⟨h1, h2 0⟩
  · intro h
    obtain ⟨b, hw, _⟩ := json_write_parse t h
    obtain ⟨b2, hw2, _⟩ := json_write_pretty_parse t h
    exact ⟨⟨b, hw⟩, ⟨b2, hw2⟩⟩

/-- Claim C5: for every tree the writer can encode, parsing the pretty output
yields the same result as parsing the compact output (at any sufficient depth
bound). -/
theorem claim_C5_pretty_equiv (t : MpvNode) (h : hasBad t = false) :
    ∃ b bp, json_write t = .ok b ∧ json_write_pretty t = .ok bp ∧
      ∀ dep, treeDepth t ≤ dep → json_parse dep bp = json_parse dep b := by
  obtain ⟨b, hw, hp⟩ := json_write_parse t h
  obtain ⟨bp, hwp, hpp⟩ := json_write_pretty_parse t h
  exact ⟨b, bp, hw, hwp, fun dep hdep => by rw [hp dep hdep, hpp dep hdep]⟩

theorem claim_C5_pretty_equiv_witness :
    hasBad (.array (.cons .none (.cons (.flag true) .nil))) = false ∧
    ∃ b bp, json_write (.array (.cons .none (.cons (.flag true) .nil))) = .ok b ∧
      json_write_pretty (.array (.cons .none (.cons (.flag true) .nil))) = .ok bp ∧
      ∀ dep, treeDepth (.array (.cons .none (.cons (.flag true) .nil))) ≤ dep →
        json_parse dep bp = json_parse dep b :=
  ⟨by decide, claim_C5_pretty_equiv _ (by decide)⟩

/-- Claim C6: string-literal parsing decodes the standard JSON escapes (the eight
single-character escapes, `\uXXXX`, and surrogate pairs) to the corresponding
byte sequence, fails on an invalid escape and on an unterminated literal; the
literal `"a\"b\\c\n"` parses to the bytes `a"b\c<LF>`, whose re-serialization
reparses to the identical byte sequence. -/
theorem claim_C6_strings :
    (∀ e dv : Nat, ∀ r : Bytes, simpleEsc e = some dv → e ≠ 117 →
      parseStr (92 :: e :: 34 :: r) = .ok ([dv], r)) ∧
    simpleEsc 34 = some 34 ∧ simpleEsc 92 = some 92 ∧ simpleEsc 47 = some 47 ∧
    simpleEsc 98 = some 8 ∧ simpleEsc 102 = some 12 ∧ simpleEsc 110 = some 10 ∧
    simpleEsc 114 = some 13 ∧ simpleEsc 116 = some 9 ∧
    (∀ h1 h2 h3 h4 a b c dv : Nat, ∀ r : Bytes,
      hexVal h1 = some a → hexVal h2 = some b → hexVal h3 = some c → hexVal h4 = some dv →
      ∀ cp : Nat, cp = ((a * 16 + b) * 16 + c) * 16 + dv →
      ¬ (55296 ≤ cp ∧ cp < 56320) → ¬ (56320 ≤ cp ∧ cp < 57344) →
      parseStr (92 :: 117 :: h1 :: h2 :: h3 :: h4 :: 34 :: r) = .ok (utf8Encode cp, r)) ∧
    (∀ h1 h2 h3 h4 h5 h6 h7 h8 a1 a2 a3 a4 b1 b2 b3 b4 : Nat, ∀ r : Bytes,
      hexVal h1 = some a1 → hexVal h2 = some a2 → hexVal h3 = some a3 → hexVal h4 = some a4 →
      hexVal h5 = some b1 → hexVal h6 = some b2 → hexVal h7 = some b3 → hexVal h8 = some b4 →
      ∀ hi lo : Nat, hi = ((a1 * 16 + a2) * 16 + a3) * 16 + a4 →
      lo = ((b1 * 16 + b2) * 16 + b3) * 16 + b4 →
      55296 ≤ hi ∧ hi < 56320 → 56320 ≤ lo ∧ lo < 57344 →
      parseStr (92 :: 117 :: h1 :: h2 :: h3 :: h4 :: 92 :: 117 :: h5 :: h6 :: h7 :: h8 :: 34 :: r)
        = .ok (utf8Encode (65536 + (hi - 55296) * 1024 + (lo - 56320)), r)) ∧
    (∀ e : Nat, ∀ r : Bytes, simpleEsc e = Option.none → e ≠ 117 →
      parseStr (92 :: e :: r) = .error (.syntaxError, e :: r)) ∧
    (∀ s : Bytes, s.all (fun b => !(b == 34) && !(b == 92)) = true →
      parseStr s = .error (.unterminated, [])) ∧
    json_parse 0 [34, 97, 92, 34, 98, 92, 92, 99, 92, 110, 34]
      = .ok (.str [97, 34, 98, 92, 99, 10], []) ∧
    (∃ b, json_write (.str [97, 34, 98, 92, 99, 10]) = .ok b ∧
      json_parse 0 b = .ok (.str [97, 34, 98, 92, 99, 10], [])) ∧
    json_parse 0 [34, 92, 117, 100, 56, 51, 100, 92, 117, 100, 101, 48, 48, 34]
      = .ok (.str [240, 159, 152, 128], []) := by
  refine ⟨fun e dv r hs h => parseStr_simpleEsc r hs h, rfl, rfl, rfl, rfl, rfl, rfl, rfl, rfl,
    fun h1 h2 h3 h4 a b c dv r ha hb hc hd cp hcp hlo hhi =>
      parseStr_uesc r ha hb hc hd hcp hlo hhi,
    fun h1 h2 h3 h4 h5 h6 h7 h8 a1 a2 a3 a4 b1 b2 b3 b4 r ha1 ha2 ha3 ha4 hb1 hb2 hb3 hb4
        hi lo hhi hlo hhir hlor =>
      parseStr_surr r ha1 ha2 ha3 ha4 hb1 hb2 hb3 hb4 hhi hlo hhir hlor,
    fun e r hs h => parseStr_badEsc r hs h,
    fun s hall => parseStr_unterminated s hall,
    rfl, ⟨[34, 97, 92, 34, 98, 92, 92, 99, 92, 110, 34], rfl, rfl⟩, rfl⟩

/-- Claim C7: for every input, the rest-of-input cursor returned by `json_parse`
points inside the original buffer: past the consumed text on success, and at the
point of failure on error (some prefix of the input was consumed up to it). -/
theorem claim_C7_cursor (maxDepth : Nat) (l : Bytes) :
    (∀ t r, json_parse maxDepth l = .ok (t, r) → ∃ consumed, consumed ++ r = l) ∧
    (∀ e p, json_parse maxDepth l = .error (e, p) → ∃ consumed, consumed ++ p = l) := by
  have hs : restOf (parseValue (3 * l.length + 3) maxDepth (skipWs l)) <:+ l :=
    ((parse_suffix (3 * l.length + 3)).1 maxDepth (skipWs l)).trans (skipWs_suffix l)
  constructor
  · intro t r h
    rw [json_parse] at h
    rw [h, restOf_ok] at hs
    exact hs
  · intro e p h
    rw [json_parse] at h
    rw [h] at hs
    rw [restOf_error] at hs
    exact hs

theorem claim_C7_cursor_witness :
    (∃ consumed, consumed ++ ([] : Bytes) = [32, 116, 114, 117, 101]) ∧
    (∃ consumed, consumed ++ [110, 117, 120] = [110, 117, 120]) :=
  ⟨(claim_C7_cursor 1 [32, 116, 114, 117, 101]).1 (.flag true) [] rfl,
   (claim_C7_cursor 1 [110, 117, 120]).2 .syntaxError [110, 117, 120] rfl⟩

/-- Claim C8: no tree returned by a successful `json_parse` call contains a
`ByteArray` node. -/
theorem claim_C8_no_bytearray (maxDepth : Nat) (l : Bytes) (t : MpvNode) (r : Bytes)
    (h : json_parse maxDepth l = .ok (t, r)) : noByteArray t = true :=
  (parse_noByteArray (3 * l.length + 3)).1 maxDepth (skipWs l) t r h

theorem claim_C8_no_bytearray_witness :
    noByteArray (.array (.cons (.int64 1) .nil)) = true :=
  claim_C8_no_bytearray 1 [91, 49, 93] (.array (.cons (.int64 1) .nil)) [] rfl

/-- Claim C10: the `mpv_node_list` invariant — `num` is never negative; when
`num > 0` the backing `values` (and for maps `keys`, all non-null) arrays cover
indices `0 .. num-1`; the empty list is represented with `num = 0` and absent
(`NULL`) arrays, and reading its valid entries yields the empty list; the writers
handle the empty containers. -/
theorem claim_C10_node_list :
    (∀ xs : NodeList, CList.wfArray (encodeArr xs)) ∧
    (∀ ps : PairList, CList.wfMap (encodeMap ps)) ∧
    (∀ α : Type, CList.elems (⟨0, Option.none, Option.none⟩ : CList α) = []) ∧
    (∀ xs : NodeList, CList.elems (encodeArr xs) = toListN xs) ∧
    (∀ ps : PairList, CList.elems (encodeMap ps) = (toListP ps).map Prod.snd) ∧
    json_write (.array .nil) = .ok [91, 93] ∧ json_write (.map .nil) = .ok [123, 125] := by
  have harr : ∀ xs : NodeList, CList.wfArray (encodeArr xs) := by
    intro xs
    unfold encodeArr
    split
    · exact ⟨le_refl 0, fun h => absurd h (by decide)⟩
    · exact ⟨Int.natCast_nonneg _, fun h => ⟨toListN xs, rfl, by simp⟩⟩
  have hmap : ∀ ps : PairList, CList.wfMap (encodeMap ps) := by
    intro ps
    unfold CList.wfMap CList.wfArray encodeMap
    split
    · exact ⟨⟨le_refl 0, fun h => absurd h (by decide)⟩, fun h => absurd h (by decide)⟩
    · refine ⟨⟨Int.natCast_nonneg _, fun h => ⟨(toListP ps).map Prod.snd, rfl, by simp⟩⟩,
        fun h => ⟨(toListP ps).map (fun p => some p.1), rfl, by simp, fun i hi hi2 => ?_⟩⟩
      simp
  refine ⟨harr, hmap, fun α => rfl, ?_, ?_, rfl, rfl⟩
  · intro xs
    unfold encodeArr
    split
    · rename_i heq
      rw [heq]
      rfl
    · simp [CList.elems]
  · intro ps
    unfold encodeMap
    split
    · rename_i heq
      rw [heq]
      rfl
    · simp [CList.elems]


end MpvJson
